import Mathlib

/-!
Verification of the pipeline graph model embedded in
`src/services/orchest-webserver/app/static/js/views/PipelineView.js`.

The JavaScript keeps the pipeline as `this.state.steps`, an object mapping
step uuid to a step record.  We embed such an object as an association list
`List (String × α)` that preserves insertion order (JS objects with
non-integer keys enumerate in insertion order); assignment to an existing
key updates the entry in place, assignment to a fresh key appends, and
`delete` removes the entry.  Machine-level concerns (DOM, SVG, jQuery event
wiring) are rendering glue and are outside the graph model; the graph
operations below translate the corresponding methods line by line.
-/

namespace PipelineView

/-- A JSON-ish value as stored in `meta_data` / `parameters` of a step.
Positions `[x, y]` are modelled by `numPair`. -/
inductive JValue where
  | num : Int → JValue
  | bool : Bool → JValue
  | str : String → JValue
  | numPair : Int → Int → JValue
  deriving Repr, DecidableEq

/-- The `kernel: {name, display_name}` sub-object of a step. -/
structure Kernel where
  name : String
  display_name : String
  deriving Repr, DecidableEq

/-- A pipeline step as held in `this.state.steps[uuid]`.  The derived
`outgoing_connections` field is absent (`none`) until `willCreateCycle`
rebuilds it; `encodeJSON` deletes it again. -/
structure Step where
  uuid : String
  title : String
  file_path : String
  incoming_connections : List String
  outgoing_connections : Option (List String) := none
  kernel : Kernel := ⟨"python", ""⟩
  environment : String := ""
  parameters : List (String × JValue) := []
  meta_data : List (String × JValue) := []
  deriving Repr, DecidableEq

/-- The steps object `this.state.steps`: a JS object from uuid to step, in insertion order. -/
abbrev Graph := List (String × Step)

/-! ### JS object primitives -/

/-- Property read `m[k]`: first entry with key `k`, if any. -/
def jsLookup {α : Type} : List (String × α) → String → Option α
  | [], _ => none
  | (k', v) :: rest, k => if k' = k then some v else jsLookup rest k

/-- Property write `m[k] = v`: update the entry in place if the key is
present, append otherwise. -/
def jsSet {α : Type} : List (String × α) → String → α → List (String × α)
  | [], k, v => [(k, v)]
  | (k', v') :: rest, k, v =>
    if k' = k then (k, v) :: rest else (k', v') :: jsSet rest k v

/-- In-place mutation of an existing property (`m[k].field = ...`):
update the entry if present, no-op otherwise (the JS would throw a
`TypeError` on a missing key; every call site below reaches only keys that
are present, which the adequacy theorems make explicit). -/
def jsUpdate {α : Type} : List (String × α) → String → (α → α) → List (String × α)
  | [], _, _ => []
  | (k', v) :: rest, k, f =>
    if k' = k then (k', f v) :: rest else (k', v) :: jsUpdate rest k f

/-- Property removal `delete m[k]`. -/
def jsDelete {α : Type} : List (String × α) → String → List (String × α)
  | [], _ => []
  | (k', v) :: rest, k => if k' = k then rest else (k', v) :: jsDelete rest k

/-- Key enumeration `Object.keys(m)`, in insertion order. -/
def keysOf {α : Type} (m : List (String × α)) : List String :=
  m.map Prod.fst

/-! ### Derived accessors on the graph -/

/-- Field read `this.state.steps[u].incoming_connections` (empty for a missing key). -/
def incomingOf (g : Graph) (u : String) : List String :=
  ((jsLookup g u).map (fun s => s.incoming_connections)).getD []

/-- Field read `this.state.steps[u].outgoing_connections` (empty when absent). -/
def outgoingOf (g : Graph) (u : String) : List String :=
  ((jsLookup g u).map (fun s => s.outgoing_connections.getD [])).getD []

/-- The connection relation as persisted: `Feeds g a b` holds when `a` is
an element of `b`'s `incoming_connections`, i.e. the pipeline has the
directed connection a → b. -/
def Feeds (g : Graph) (a b : String) : Prop :=
  a ∈ incomingOf g b

/-- The edge relation the depth-first search actually walks: `b` occurs in
`a`'s (rebuilt) `outgoing_connections`. -/
def Eg (g : Graph) (a b : String) : Prop :=
  b ∈ outgoingOf g a

/-! ### Basic lemmas about the JS object primitives -/

@[simp] theorem keysOf_nil {α : Type} : keysOf ([] : List (String × α)) = [] := rfl

@[simp] theorem keysOf_cons {α : Type} (k : String) (v : α) (tl : List (String × α)) :
    keysOf ((k, v) :: tl) = k :: keysOf tl := rfl

theorem keysOf_append {α : Type} (m m' : List (String × α)) :
    keysOf (m ++ m') = keysOf m ++ keysOf m' := by
  simp [keysOf]

theorem keysOf_jsUpdate {α : Type} (m : List (String × α)) (k : String) (f : α → α) :
    keysOf (jsUpdate m k f) = keysOf m := by
  induction m with
  | nil => rfl
  | cons hd tl ih =>
    obtain ⟨k', v⟩ := hd
    by_cases h : k' = k
    · simp [jsUpdate, h]
    · simp [jsUpdate, h, ih]

theorem jsLookup_jsUpdate_self {α : Type} (m : List (String × α)) (k : String) (f : α → α) :
    jsLookup (jsUpdate m k f) k = (jsLookup m k).map f := by
  induction m with
  | nil => rfl
  | cons hd tl ih =>
    obtain ⟨k', v⟩ := hd
    by_cases h : k' = k <;> simp [jsUpdate, jsLookup, h, ih]

theorem jsLookup_jsUpdate_ne {α : Type} (m : List (String × α)) (k k' : String)
    (f : α → α) (h : k' ≠ k) :
    jsLookup (jsUpdate m k f) k' = jsLookup m k' := by
  induction m with
  | nil => rfl
  | cons hd tl ih =>
    obtain ⟨k₀, v⟩ := hd
    by_cases h0 : k₀ = k
    · subst h0
      simp [jsUpdate, jsLookup, Ne.symm h]
    · by_cases h1 : k₀ = k'
      · subst h1
        simp [jsUpdate, jsLookup, h0]
      · simp [jsUpdate, jsLookup, h0, h1, ih]

theorem jsUpdate_not_mem {α : Type} (m : List (String × α)) (k : String) (f : α → α)
    (h : k ∉ keysOf m) : jsUpdate m k f = m := by
  induction m with
  | nil => rfl
  | cons hd tl ih =>
    obtain ⟨k', v⟩ := hd
    rw [keysOf_cons, List.mem_cons] at h
    push_neg at h
    simp [jsUpdate, Ne.symm h.1, ih h.2]

theorem jsLookup_isSome_iff {α : Type} (m : List (String × α)) (k : String) :
    (jsLookup m k).isSome ↔ k ∈ keysOf m := by
  induction m with
  | nil => simp [jsLookup]
  | cons hd tl ih =>
    obtain ⟨k', v⟩ := hd
    by_cases h : k' = k
    · simp [jsLookup, h]
    · simp [jsLookup, h, ih, Ne.symm h]

theorem jsLookup_eq_none_iff {α : Type} (m : List (String × α)) (k : String) :
    jsLookup m k = none ↔ k ∉ keysOf m := by
  rw [← jsLookup_isSome_iff]
  cases jsLookup m k <;> simp

theorem jsLookup_mem {α : Type} (m : List (String × α)) (k : String) (v : α)
    (h : jsLookup m k = some v) : (k, v) ∈ m := by
  induction m with
  | nil => simp [jsLookup] at h
  | cons hd tl ih =>
    obtain ⟨k', v'⟩ := hd
    by_cases h0 : k' = k
    · subst h0
      simp [jsLookup] at h
      simp [h]
    · simp [jsLookup, h0] at h
      exact List.mem_cons_of_mem _ (ih h)

theorem mem_jsLookup_of_nodup {α : Type} (m : List (String × α)) (k : String) (v : α)
    (hnd : (keysOf m).Nodup) (h : (k, v) ∈ m) : jsLookup m k = some v := by
  induction m with
  | nil => simp at h
  | cons hd tl ih =>
    obtain ⟨k', v'⟩ := hd
    rw [keysOf_cons, List.nodup_cons] at hnd
    rcases List.mem_cons.mp h with h | h
    · obtain ⟨h1, h2⟩ := Prod.mk.injEq .. ▸ h.symm
      simp [jsLookup, h1, h2]
    · have hk : k' ≠ k := by
        intro he
        subst he
        exact hnd.1 (List.mem_map_of_mem Prod.fst h)
      simp [jsLookup, hk]
      exact ih hnd.2 h

theorem jsLookup_map_value {α β : Type} (m : List (String × α)) (f : α → β) (k : String) :
    jsLookup (m.map (fun kv => (kv.1, f kv.2))) k = (jsLookup m k).map f := by
  induction m with
  | nil => rfl
  | cons hd tl ih =>
    obtain ⟨k', v⟩ := hd
    by_cases h : k' = k <;> simp [jsLookup, h, ih]

theorem keysOf_map_value {α β : Type} (m : List (String × α)) (f : α → β) :
    keysOf (m.map (fun kv => (kv.1, f kv.2))) = keysOf m := by
  simp [keysOf]

theorem jsSet_not_mem {α : Type} (m : List (String × α)) (k : String) (v : α)
    (h : k ∉ keysOf m) : jsSet m k v = m ++ [(k, v)] := by
  induction m with
  | nil => rfl
  | cons hd tl ih =>
    obtain ⟨k', v'⟩ := hd
    rw [keysOf_cons, List.mem_cons] at h
    push_neg at h
    simp [jsSet, Ne.symm h.1, ih h.2]

/-! ### `validatePipelineJSON`

`validatePipelineJSON` scans all steps with a labelled nested loop; on the
first notebook-file conflict it pushes one error message and breaks out of
both loops (`break outerLoop`).  The labelled break is modelled as a
first-match search (`findConflictAux`/`findOther`). -/

/-- The characters after the last dot (`acc` collects the current
segment, reset at every dot). -/
def extAfterLastDot : List Char → List Char → List Char
  | [], acc => acc
  | c :: cs, acc => if c = '.' then extAfterLastDot cs [] else extAfterLastDot cs (acc ++ [c])

/-- Modelled from the spec: `extensionFromFilename` is imported from the
webserver's `utils/all` module, which is not part of this excerpt.  The
spec calls a step notebook-kind when its file extension is `"ipynb"`, so
the extension is the part of the filename after the last dot. -/
def extensionFromFilename (filename : String) : String :=
  String.mk (extAfterLastDot filename.data [])

/-- The template string pushed into `pipelineValidation.errors`, naming
both offending steps by title and uuid. -/
def validationMessage (step otherStep : Step) : String :=
  "Pipeline step \"" ++ step.title ++ "\" (" ++ step.uuid ++
    ") has the same Notebook assigned as pipeline step \"" ++
    otherStep.title ++ "\" (" ++ otherStep.uuid ++
    "). Assigning the same Notebook file to multiple steps is not supported. " ++
    "Please convert to a script to re-use file across pipeline steps."

/-- The inner loop: the first other step (in enumeration order) with a
different uuid and the same `file_path` as `step`. -/
def findOther (step : Step) : Graph → Option Step
  | [] => none
  | (_, otherStep) :: rest =>
    if step.uuid = otherStep.uuid then findOther step rest
    else if otherStep.file_path = step.file_path then some otherStep
    else findOther step rest

/-- The outer loop over `remaining`, with `g` the full steps object the
inner loop scans. -/
def findConflictAux (g : Graph) : Graph → Option (Step × Step)
  | [] => none
  | (_, step) :: rest =>
    if extensionFromFilename step.file_path = "ipynb" then
      match findOther step g with
      | some otherStep => some (step, otherStep)
      | none => findConflictAux g rest
    else findConflictAux g rest

/-- The method `validatePipelineJSON`: `.1` is `pipelineValidation.valid`, `.2` is
`pipelineValidation.errors`. -/
def validatePipelineJSON (g : Graph) : Bool × List String :=
  match findConflictAux g g with
  | none => (true, [])
  | some (step, otherStep) => (false, [validationMessage step otherStep])

/-! ### `encodeJSON` / `decodeJSON` -/

/-- The check `key[0] === "_"`: the key's first character is an underscore (an empty
key has no first character, so it does not count). -/
def underscorePrefixed (k : String) : Bool :=
  match k.data with
  | [] => false
  | c :: _ => c = '_'

/-- Drop every `meta_data` key prefixed with an underscore
(`if (key[0] === "_") delete step.meta_data[key]`). -/
def stripMeta (md : List (String × JValue)) : List (String × JValue) :=
  md.filter (fun p => !underscorePrefixed p.1)

/-- The per-step body of `encodeJSON`: strip private `meta_data` keys and
delete the derived `outgoing_connections` field. -/
def encodeStep (s : Step) : Step :=
  { s with meta_data := stripMeta s.meta_data, outgoing_connections := none }

/-- The method `encodeJSON` (the `steps` object): a fresh object is filled with
`pipelineJSON["steps"][step.uuid] = step` for each step in state order. -/
def encodeJSON (g : Graph) : Graph :=
  g.foldl (fun acc kv => jsSet acc kv.2.uuid (encodeStep kv.2)) []

/-- The per-step body of `decodeJSON`: augment runtime drag state
(`meta_data._drag_count = 0; meta_data._dragged = false`). -/
def decodeStep (s : Step) : Step :=
  { s with meta_data :=
      jsSet (jsSet s.meta_data "_drag_count" (JValue.num 0)) "_dragged" (JValue.bool false) }

/-- The method `decodeJSON`: load the document's steps into the current
`this.state.steps` object (`steps0`; `{}` right after construction). -/
def decodeJSON (doc : Graph) (steps0 : Graph) : Graph :=
  doc.foldl (fun acc kv => jsSet acc kv.1 (decodeStep kv.2)) steps0

/-! ### `willCreateCycle` and its depth-first search -/

/-- The push `steps[endU].incoming_connections.push(startU)`. -/
def addIncoming (g : Graph) (startU endU : String) : Graph :=
  jsUpdate g endU
    (fun s => { s with incoming_connections := s.incoming_connections ++ [startU] })

/-- The splice `steps[endU].incoming_connections.splice(insertIndex, 1)`. -/
def spliceIncoming (g : Graph) (endU : String) (insertIndex : Nat) : Graph :=
  jsUpdate g endU
    (fun s => { s with incoming_connections := s.incoming_connections.eraseIdx insertIndex })

/-- First loop of the rebuild: `steps[uuid].outgoing_connections = []` for
every step. -/
def resetOutgoing (g : Graph) : Graph :=
  g.map (fun kv => (kv.1, { kv.2 with outgoing_connections := some [] }))

/-- The push `steps[src].outgoing_connections.push(dst)`. -/
def pushOutgoing (g : Graph) (src dst : String) : Graph :=
  jsUpdate g src
    (fun s => { s with outgoing_connections := some (s.outgoing_connections.getD [] ++ [dst]) })

/-- Second loop of the rebuild: for every step (in order) push its uuid
onto the `outgoing_connections` of each of its incoming sources. -/
def rebuildOutgoing (g : Graph) : Graph :=
  (g.map (fun kv => (kv.1, kv.2.incoming_connections))).foldl
    (fun acc p => p.2.foldl (fun acc2 src => pushOutgoing acc2 src p.1) acc)
    (resetOutgoing g)

/-- The `for` loop inside `dfsWithSets` over the current node's children,
threading the shared `whiteSet`/`greySet` and returning early on a found
cycle.  `dfs` is the recursive call to `dfsWithSets`. -/
def dfsChildrenF
    (dfs : String → List String → List String → Option (Bool × List String × List String)) :
    List String → List String → List String → Option (Bool × List String × List String)
  | [], white, grey => some (false, white, grey)
  | c :: cs, white, grey =>
    if c ∈ white then
      match dfs c white grey with
      | none => none
      | some (true, w, gr) => some (true, w, gr)
      | some (false, w, gr) => dfsChildrenF dfs cs w gr
    else if c ∈ grey then some (true, white, grey)
    else dfsChildrenF dfs cs white grey

/-- The method `dfsWithSets(step_uuid, whiteSet, greySet)`: move the node from white
to grey, walk its `outgoing_connections`, and on normal completion move it
from grey to black (delete from grey).  `fuel` bounds the recursion depth;
`dfs_terminates_within_step_count` shows `whiteSet.length` fuel always
suffices, so the `none` (out-of-fuel) answer never occurs in the calls the
model makes. -/
def dfsWithSetsF (g : Graph) :
    Nat → String → List String → List String → Option (Bool × List String × List String)
  | 0, _, _, _ => none
  | fuel + 1, u, white, grey =>
    match dfsChildrenF (fun c w gr => dfsWithSetsF g fuel c w gr) (outgoingOf g u)
        (white.erase u) (if u ∈ grey then grey else grey ++ [u]) with
    | none => none
    | some (true, w, gr) => some (true, w, gr)
    | some (false, w, gr) => some (false, w, gr.erase u)

/-- The `while (whiteSet.size > 0)` loop of `willCreateCycle`: repeatedly
start a depth-first search at the first remaining white node, latching
`cycles`.  `fuel` bounds the number of iterations; each iteration removes
at least the chosen node from the white set, so `white.length + 1` fuel
always suffices (`dfs_terminates_within_step_count`). -/
def cycleLoopF (g : Graph) : Nat → List String → List String → Bool → Bool
  | 0, _, _, cycles => cycles
  | _ + 1, [], _, cycles => cycles
  | fuel + 1, u :: tl, grey, cycles =>
    match dfsWithSetsF g (tl.length + 1) u (u :: tl) grey with
    | none => cycles
    | some (b, w, gr) => cycleLoopF g fuel w gr (cycles || b)

/-- The method `willCreateCycle(startNodeUUID, endNodeUUID)`: push the hypothetical
edge, rebuild all `outgoing_connections`, run the coloured depth-first
search over every step, then splice the hypothetical edge back out.
Returns the flag together with the state the mutations leave behind. -/
def willCreateCycle (g : Graph) (startU endU : String) : Bool × Graph :=
  let insertIndex := (incomingOf g endU).length
  let g1 := addIncoming g startU endU
  let g2 := rebuildOutgoing g1
  let white := keysOf g2
  let cycles := cycleLoopF g2 (white.length + 1) white [] false
  (cycles, spliceIncoming g2 endU insertIndex)

/-! ### `makeConnection`, the connect flow, `deleteStep` -/

/-- The method `makeConnection(sourcePipelineStepUUID, targetPipelineStepUUID)`: push
the source onto the target's `incoming_connections` unless already
present. -/
def makeConnection (g : Graph) (src tgt : String) : Graph :=
  if src ∈ incomingOf g tgt then g else addIncoming g src tgt

/-- Outcome of the connect flow; each constructor carries the
`this.state.steps` object left behind. -/
inductive ConnectResult where
  | ok (g : Graph)
  | duplicateConnectionError (g : Graph)
  | cycleError (g : Graph)
  deriving Repr, DecidableEq

/-- The connect flow of the `mouseup.initializePipeline` handler for a
drag released on a target's incoming-connections area: reject an existing
connection ("These steps are already connected"), otherwise run
`willCreateCycle` and either alert about the cycle or call
`makeConnection` through the step's `onConnect`. -/
def connect (g : Graph) (src tgt : String) : ConnectResult :=
  if src ∈ incomingOf g tgt then ConnectResult.duplicateConnectionError g
  else
    let r := willCreateCycle g src tgt
    if r.1 then ConnectResult.cycleError r.2
    else ConnectResult.ok (makeConnection r.2 src tgt)

/-- First loop of `deleteStep`: splice `uuid` out of every step's
`incoming_connections` (`splice(indexOf(uuid), 1)` removes the first
occurrence only).  The per-connection DOM bookkeeping is rendering glue
and not part of the graph state. -/
def deleteStepStrip (g : Graph) (uuid : String) : Graph :=
  g.map (fun kv => (kv.1, { kv.2 with
    incoming_connections := kv.2.incoming_connections.erase uuid }))

/-- Outcome of `deleteStep`; `typeError` is the `TypeError` the JS raises
at `this.state.steps[uuid].incoming_connections` when `uuid` is not a key,
carrying the state the already-performed mutations leave behind. -/
inductive DeleteResult where
  | ok (g : Graph)
  | typeError (g : Graph)
  deriving Repr, DecidableEq

/-- The method `deleteStep(uuid)`: strip the uuid from all incoming connections, read
`this.state.steps[uuid]` (raising `TypeError` when absent), then
`delete this.state.steps[uuid]`. -/
def deleteStep (g : Graph) (uuid : String) : DeleteResult :=
  let g1 := deleteStepStrip g uuid
  match jsLookup g1 uuid with
  | none => DeleteResult.typeError g1
  | some _ => DeleteResult.ok (jsDelete g1 uuid)

/-- A sequence of connect operations, succeeding only if every single
`connect` returns `ok`. -/
def connectOps (g : Graph) : List (String × String) → Option Graph
  | [] => some g
  | p :: ps =>
    match connect g p.1 p.2 with
    | ConnectResult.ok g' => connectOps g' ps
    | _ => none

/-! ### Properties of the outgoing-connections rebuild -/

theorem jsLookup_resetOutgoing (g : Graph) (u : String) :
    jsLookup (resetOutgoing g) u
      = (jsLookup g u).map (fun s => { s with outgoing_connections := some [] }) := by
  induction g with
  | nil => rfl
  | cons hd tl ih =>
    obtain ⟨k, s⟩ := hd
    by_cases h : k = u
    · simp [resetOutgoing, jsLookup, h]
    · simp only [resetOutgoing, List.map_cons, jsLookup, h, if_false] at ih ⊢
      exact ih

theorem keysOf_resetOutgoing (g : Graph) : keysOf (resetOutgoing g) = keysOf g := by
  simp [resetOutgoing, keysOf, List.map_map, Function.comp]

theorem keysOf_pushOutgoing (g : Graph) (src dst : String) :
    keysOf (pushOutgoing g src dst) = keysOf g :=
  keysOf_jsUpdate ..

theorem incomingOf_resetOutgoing (g : Graph) (u : String) :
    incomingOf (resetOutgoing g) u = incomingOf g u := by
  rw [incomingOf, incomingOf, jsLookup_resetOutgoing]
  cases jsLookup g u <;> rfl

theorem outgoingOf_resetOutgoing (g : Graph) (u : String) :
    outgoingOf (resetOutgoing g) u = [] := by
  rw [outgoingOf, jsLookup_resetOutgoing]
  cases jsLookup g u <;> rfl

theorem incomingOf_pushOutgoing (g : Graph) (src dst u : String) :
    incomingOf (pushOutgoing g src dst) u = incomingOf g u := by
  by_cases h : u = src
  · subst h
    simp only [incomingOf, pushOutgoing, jsLookup_jsUpdate_self]
    cases jsLookup g u <;> rfl
  · simp only [incomingOf, pushOutgoing, jsLookup_jsUpdate_ne _ _ _ _ h]

theorem outgoingOf_pushOutgoing_self (g : Graph) (src dst : String)
    (h : src ∈ keysOf g) :
    outgoingOf (pushOutgoing g src dst) src = outgoingOf g src ++ [dst] := by
  have hs : (jsLookup g src).isSome := (jsLookup_isSome_iff g src).mpr h
  simp only [outgoingOf, pushOutgoing, jsLookup_jsUpdate_self]
  cases hl : jsLookup g src with
  | none => rw [hl] at hs; simp at hs
  | some s => rfl

theorem outgoingOf_pushOutgoing_ne (g : Graph) (src dst u : String) (h : u ≠ src) :
    outgoingOf (pushOutgoing g src dst) u = outgoingOf g u := by
  simp only [outgoingOf, pushOutgoing, jsLookup_jsUpdate_ne _ _ _ _ h]

theorem pushOutgoing_not_mem (g : Graph) (src dst : String) (h : src ∉ keysOf g) :
    pushOutgoing g src dst = g :=
  jsUpdate_not_mem _ _ _ h

theorem keysOf_innerfold (t : String) (incs : List String) (acc : Graph) :
    keysOf (incs.foldl (fun acc2 src => pushOutgoing acc2 src t) acc) = keysOf acc := by
  induction incs generalizing acc with
  | nil => rfl
  | cons src rest ih => rw [List.foldl_cons, ih, keysOf_pushOutgoing]

theorem incomingOf_innerfold (t : String) (incs : List String) (acc : Graph) (u : String) :
    incomingOf (incs.foldl (fun acc2 src => pushOutgoing acc2 src t) acc) u
      = incomingOf acc u := by
  induction incs generalizing acc with
  | nil => rfl
  | cons src rest ih => rw [List.foldl_cons, ih, incomingOf_pushOutgoing]

theorem mem_outgoingOf_innerfold (t : String) (incs : List String) (acc : Graph)
    (x y : String) :
    y ∈ outgoingOf (incs.foldl (fun acc2 src => pushOutgoing acc2 src t) acc) x ↔
      y ∈ outgoingOf acc x ∨ (x ∈ keysOf acc ∧ x ∈ incs ∧ y = t) := by
  induction incs generalizing acc with
  | nil => simp
  | cons src rest ih =>
    rw [List.foldl_cons, ih, keysOf_pushOutgoing]
    by_cases hx : x = src
    · subst hx
      by_cases hk : x ∈ keysOf acc
      · rw [outgoingOf_pushOutgoing_self _ _ _ hk]
        simp only [List.mem_append, List.mem_singleton, List.mem_cons, hk, true_and]
        tauto
      · rw [pushOutgoing_not_mem _ _ _ hk]
        simp only [List.mem_cons]
        tauto
    · rw [outgoingOf_pushOutgoing_ne _ _ _ _ hx]
      simp only [List.mem_cons]
      constructor
      · rintro (h | ⟨h1, h2, h3⟩)
        · exact Or.inl h
        · exact Or.inr ⟨h1, Or.inr h2, h3⟩
      · rintro (h | ⟨h1, h2 | h2, h3⟩)
        · exact Or.inl h
        · exact absurd h2 hx
        · exact Or.inr ⟨h1, h2, h3⟩

theorem keysOf_outerfold (pairs : List (String × List String)) (acc : Graph) :
    keysOf (pairs.foldl
      (fun a p => p.2.foldl (fun a2 src => pushOutgoing a2 src p.1) a) acc) = keysOf acc := by
  induction pairs generalizing acc with
  | nil => rfl
  | cons p rest ih => rw [List.foldl_cons, ih, keysOf_innerfold]

theorem incomingOf_outerfold (pairs : List (String × List String)) (acc : Graph)
    (u : String) :
    incomingOf (pairs.foldl
      (fun a p => p.2.foldl (fun a2 src => pushOutgoing a2 src p.1) a) acc) u
      = incomingOf acc u := by
  induction pairs generalizing acc with
  | nil => rfl
  | cons p rest ih => rw [List.foldl_cons, ih, incomingOf_innerfold]

theorem mem_outgoingOf_outerfold (pairs : List (String × List String)) (acc : Graph)
    (x y : String) :
    y ∈ outgoingOf (pairs.foldl
      (fun a p => p.2.foldl (fun a2 src => pushOutgoing a2 src p.1) a) acc) x ↔
      y ∈ outgoingOf acc x ∨ ∃ p ∈ pairs, x ∈ keysOf acc ∧ x ∈ p.2 ∧ y = p.1 := by
  induction pairs generalizing acc with
  | nil => simp
  | cons p rest ih =>
    rw [List.foldl_cons, ih, keysOf_innerfold, mem_outgoingOf_innerfold]
    simp only [List.mem_cons]
    constructor
    · rintro ((h | ⟨h1, h2, h3⟩) | ⟨q, hq, h1, h2, h3⟩)
      · exact Or.inl h
      · exact Or.inr ⟨p, Or.inl rfl, h1, h2, h3⟩
      · exact Or.inr ⟨q, Or.inr hq, h1, h2, h3⟩
    · rintro (h | ⟨q, (hq | hq), h1, h2, h3⟩)
      · exact Or.inl (Or.inl h)
      · subst hq
        exact Or.inl (Or.inr ⟨h1, h2, h3⟩)
      · exact Or.inr ⟨q, hq, h1, h2, h3⟩

theorem keysOf_rebuildOutgoing (g : Graph) : keysOf (rebuildOutgoing g) = keysOf g := by
  rw [rebuildOutgoing, keysOf_outerfold, keysOf_resetOutgoing]

theorem incomingOf_rebuildOutgoing (g : Graph) (u : String) :
    incomingOf (rebuildOutgoing g) u = incomingOf g u := by
  rw [rebuildOutgoing, incomingOf_outerfold, incomingOf_resetOutgoing]

/-- Characterization of the rebuilt edge relation: after the rebuild, `y`
occurs in `x`'s `outgoing_connections` exactly when `x` is a present key
occurring in `y`'s `incoming_connections`. -/
theorem Eg_rebuildOutgoing_iff (g : Graph) (hnd : (keysOf g).Nodup) (x y : String) :
    Eg (rebuildOutgoing g) x y ↔ x ∈ keysOf g ∧ Feeds g x y := by
  rw [Eg, rebuildOutgoing, mem_outgoingOf_outerfold, outgoingOf_resetOutgoing,
    keysOf_resetOutgoing]
  simp only [List.mem_nil_iff, false_or, List.mem_map]
  constructor
  · rintro ⟨p, ⟨kv, hkv, rfl⟩, h1, h2, rfl⟩
    refine ⟨h1, ?_⟩
    have hl : jsLookup g kv.1 = some kv.2 := mem_jsLookup_of_nodup _ _ _ hnd (by simpa using hkv)
    rw [Feeds, incomingOf, hl]
    exact h2
  · rintro ⟨h1, h2⟩
    rw [Feeds, incomingOf] at h2
    cases hl : jsLookup g y with
    | none => rw [hl] at h2; simp at h2
    | some s =>
      rw [hl] at h2
      exact ⟨(y, s.incoming_connections), ⟨(y, s), jsLookup_mem _ _ _ hl, rfl⟩, h1, h2, rfl⟩

/-- Edges of the rebuilt graph only point at present keys. -/
theorem Eg_rebuildOutgoing_target_mem (g : Graph) (x y : String)
    (h : Eg (rebuildOutgoing g) x y) : y ∈ keysOf g := by
  rw [Eg, rebuildOutgoing, mem_outgoingOf_outerfold, outgoingOf_resetOutgoing] at h
  simp only [List.mem_nil_iff, false_or, List.mem_map] at h
  obtain ⟨p, ⟨kv, hkv, rfl⟩, _, _, rfl⟩ := h
  exact List.mem_map_of_mem Prod.fst hkv

/-! ### The three-colour depth-first search: termination bounds -/

theorem dfsChildrenF_sublist
    (dfs : String → List String → List String → Option (Bool × List String × List String))
    (hdfs : ∀ c white grey r, dfs c white grey = some r → r.2.1.Sublist (white.erase c)) :
    ∀ (cs white grey : List String) r, dfsChildrenF dfs cs white grey = some r →
      r.2.1.Sublist white := by
  intro cs
  induction cs with
  | nil =>
    intro white grey r h
    simp only [dfsChildrenF, Option.some.injEq] at h
    subst h
    exact List.Sublist.refl _
  | cons c cs ih =>
    intro white grey r h
    simp only [dfsChildrenF] at h
    by_cases hc : c ∈ white
    · rw [if_pos hc] at h
      cases hd : dfs c white grey with
      | none => rw [hd] at h; cases h
      | some r1 =>
        rw [hd] at h
        obtain ⟨b1, w1, gr1⟩ := r1
        have hsub1 : w1.Sublist white :=
          ((hdfs c white grey _ hd).trans (List.erase_sublist _ _))
        cases b1 with
        | true =>
          simp only [Option.some.injEq] at h
          subst h
          exact hsub1
        | false => exact (ih w1 gr1 r h).trans hsub1
    · rw [if_neg hc] at h
      by_cases hg : c ∈ grey
      · rw [if_pos hg] at h
        simp only [Option.some.injEq] at h
        subst h
        exact List.Sublist.refl _
      · rw [if_neg hg] at h
        exact ih white grey r h

theorem dfsWithSetsF_sublist (g : Graph) :
    ∀ (fuel : Nat) (u : String) (white grey : List String) r,
      dfsWithSetsF g fuel u white grey = some r → r.2.1.Sublist (white.erase u) := by
  intro fuel
  induction fuel with
  | zero => intro u white grey r h; simp [dfsWithSetsF] at h
  | succ fuel ih =>
    intro u white grey r h
    simp only [dfsWithSetsF] at h
    cases hd : dfsChildrenF (fun c w gr => dfsWithSetsF g fuel c w gr) (outgoingOf g u)
        (white.erase u) (if u ∈ grey then grey else grey ++ [u]) with
    | none => rw [hd] at h; cases h
    | some r1 =>
      rw [hd] at h
      obtain ⟨b1, w1, gr1⟩ := r1
      have hsub : w1.Sublist (white.erase u) :=
        dfsChildrenF_sublist _ (fun c w' g' r' hr' => ih c w' g' r' hr') _ _ _ _ hd
      cases b1 with
      | true =>
        simp only [Option.some.injEq] at h
        subst h
        exact hsub
      | false =>
        simp only [Option.some.injEq] at h
        subst h
        exact hsub

theorem dfsChildrenF_isSome
    (dfs : String → List String → List String → Option (Bool × List String × List String))
    (fuel : Nat)
    (hdfs_some : ∀ c white grey, c ∈ white → white.length ≤ fuel → (dfs c white grey).isSome)
    (hdfs_sub : ∀ c white grey r, dfs c white grey = some r → r.2.1.Sublist (white.erase c)) :
    ∀ (cs white grey : List String), white.length ≤ fuel →
      (dfsChildrenF dfs cs white grey).isSome := by
  intro cs
  induction cs with
  | nil => intro white grey _; simp [dfsChildrenF]
  | cons c cs ih =>
    intro white grey hlen
    simp only [dfsChildrenF]
    by_cases hc : c ∈ white
    · rw [if_pos hc]
      cases hd : dfs c white grey with
      | none =>
        have := hdfs_some c white grey hc hlen
        rw [hd] at this
        cases this
      | some r1 =>
        obtain ⟨b1, w1, gr1⟩ := r1
        cases b1 with
        | true => simp
        | false =>
          have hsub : w1.Sublist (white.erase c) := hdfs_sub c white grey _ hd
          exact ih w1 gr1 (le_trans (hsub.length_le.trans (List.length_erase_le _ _)) hlen)
    · rw [if_neg hc]
      by_cases hg : c ∈ grey
      · rw [if_pos hg]; simp
      · rw [if_neg hg]
        exact ih white grey hlen

theorem dfsWithSetsF_isSome (g : Graph) :
    ∀ (fuel : Nat) (u : String) (white grey : List String),
      u ∈ white → white.length ≤ fuel → (dfsWithSetsF g fuel u white grey).isSome := by
  intro fuel
  induction fuel with
  | zero =>
    intro u white grey hu hlen
    have : 0 < white.length := List.length_pos.mpr (List.ne_nil_of_mem hu)
    omega
  | succ fuel ih =>
    intro u white grey hu hlen
    simp only [dfsWithSetsF]
    have hlen' : (white.erase u).length ≤ fuel := by
      rw [List.length_erase_of_mem hu]
      omega
    have hsome := dfsChildrenF_isSome (fun c w gr => dfsWithSetsF g fuel c w gr) fuel
      (fun c w gr hc hl => ih c w gr hc hl)
      (fun c w gr r hr => dfsWithSetsF_sublist g fuel c w gr r hr)
      (outgoingOf g u) (white.erase u) (if u ∈ grey then grey else grey ++ [u]) hlen'
    cases hd : dfsChildrenF (fun c w gr => dfsWithSetsF g fuel c w gr) (outgoingOf g u)
        (white.erase u) (if u ∈ grey then grey else grey ++ [u]) with
    | none => rw [hd] at hsome; cases hsome
    | some r1 =>
      obtain ⟨b1, w1, gr1⟩ := r1
      cases b1 <;> simp

/-! ### The three-colour invariant -/

/-- A node is black (done) when it is a step of the graph that is neither
white (unvisited) nor grey (on the recursion stack). -/
def Blackened (g : Graph) (white grey : List String) (x : String) : Prop :=
  x ∈ keysOf g ∧ x ∉ white ∧ x ∉ grey

/-- The invariant the depth-first search maintains over the white/grey
sets: white keys are distinct steps disjoint from grey, black nodes have
only black successors, and no black node lies on a cycle. -/
structure DfsInv (g : Graph) (white grey : List String) : Prop where
  ndW : white.Nodup
  wKeys : ∀ x ∈ white, x ∈ keysOf g
  disj : ∀ x ∈ white, x ∉ grey
  closed : ∀ x, Blackened g white grey x → ∀ y, Eg g x y → Blackened g white grey y
  noCyc : ∀ x, Blackened g white grey x → ¬ Relation.TransGen (Eg g) x x

/-- Entering a node (white → grey) leaves the black set unchanged. -/
theorem blackened_enter_iff (g : Graph) (white grey : List String) (u : String)
    (hnd : white.Nodup) (hu : u ∈ white) (hug : u ∉ grey) (x : String) :
    Blackened g (white.erase u) (grey ++ [u]) x ↔ Blackened g white grey x := by
  constructor
  · rintro ⟨h1, h2, h3⟩
    simp only [List.mem_append, List.mem_singleton] at h3
    push_neg at h3
    refine ⟨h1, ?_, h3.1⟩
    intro hx
    exact h2 ((hnd.mem_erase_iff).mpr ⟨h3.2, hx⟩)
  · rintro ⟨h1, h2, h3⟩
    have hxu : x ≠ u := by
      intro he
      subst he
      exact h2 hu
    refine ⟨h1, fun hx => h2 ((List.erase_sublist _ _).mem hx), ?_⟩
    simp only [List.mem_append, List.mem_singleton]
    push_neg
    exact ⟨h3, hxu⟩

/-- Leaving a node (grey → black) enlarges the black set by exactly that
node. -/
theorem blackened_exit_iff (g : Graph) (w grey : List String) (u : String)
    (hk : u ∈ keysOf g) (huw : u ∉ w) (hug : u ∉ grey) (x : String) :
    Blackened g w grey x ↔ Blackened g w (grey ++ [u]) x ∨ x = u := by
  constructor
  · rintro ⟨h1, h2, h3⟩
    by_cases hx : x = u
    · exact Or.inr hx
    · refine Or.inl ⟨h1, h2, ?_⟩
      simp only [List.mem_append, List.mem_singleton]
      push_neg
      exact ⟨h3, hx⟩
  · rintro (⟨h1, h2, h3⟩ | rfl)
    · simp only [List.mem_append, List.mem_singleton] at h3
      push_neg at h3
      exact ⟨h1, h2, h3.1⟩
    · exact ⟨hk, huw, hug⟩

/-- Everything reachable from a black node is black. -/
theorem blackened_reach (g : Graph) (white grey : List String)
    (hcl : ∀ x, Blackened g white grey x → ∀ y, Eg g x y → Blackened g white grey y)
    (b y : String) (hb : Blackened g white grey b)
    (hr : Relation.ReflTransGen (Eg g) b y) : Blackened g white grey y := by
  induction hr with
  | refl => exact hb
  | tail hstep hedge ih => exact hcl _ ih _ hedge

theorem getLast?_append_single {α : Type} (l : List α) (a : α) :
    (l ++ [a]).getLast? = some a := by
  induction l with
  | nil => rfl
  | cons x l ih =>
    cases l with
    | nil => rfl
    | cons y l' =>
      rw [List.cons_append, List.cons_append, List.getLast?_cons_cons, ← List.cons_append]
      exact ih

theorem chain'_snoc (R : String → String → Prop) (l : List String) (p c : String)
    (hch : List.Chain' R (l ++ [p])) (hR : R p c) :
    List.Chain' R ((l ++ [p]) ++ [c]) := by
  rw [List.chain'_append]
  refine ⟨hch, List.chain'_singleton c, ?_⟩
  intro x hx y hy
  rw [getLast?_append_single, Option.mem_def, Option.some.injEq] at hx
  simp only [List.head?_cons, Option.mem_def, Option.some.injEq] at hy
  subst hx
  subst hy
  exact hR

/-- Along a chain ending in `b`, every member reaches `b`. -/
theorem chain'_reflTransGen_last (R : String → String → Prop) :
    ∀ (l : List String) (a b : String), List.Chain' R (l ++ [b]) → a ∈ l ++ [b] →
      Relation.ReflTransGen R a b := by
  intro l
  induction l with
  | nil =>
    intro a b _ ha
    simp only [List.nil_append, List.mem_singleton] at ha
    subst ha
    exact Relation.ReflTransGen.refl
  | cons x l ih =>
    intro a b hch ha
    rw [List.cons_append] at hch ha
    have hch' : List.Chain' R (l ++ [b]) := hch.tail
    rcases List.mem_cons.mp ha with rfl | ha'
    · cases hl : l with
      | nil =>
        subst hl
        have hR : R a b := (List.chain'_cons.mp hch).1
        exact Relation.ReflTransGen.single hR
      | cons y l' =>
        subst hl
        rw [List.cons_append] at hch
        have hR : R a y := (List.chain'_cons.mp hch).1
        exact Relation.ReflTransGen.head hR (ih y b hch' (by simp))
    · exact ih a b hch' ha'

/-- Postcondition of one `dfsWithSets` call started at `u` that returned
`(b, w, gr)`: a `true` answer certifies a cycle; a `false` answer restores
the grey set, shrinks the white set, re-establishes the invariant and
blackens `u`. -/
structure DfsPost (g : Graph) (white grey : List String) (u : String)
    (b : Bool) (w gr : List String) : Prop where
  onTrue : b = true → ∃ x, Relation.TransGen (Eg g) x x
  greyEq : b = false → gr = grey
  whiteSub : b = false → w.Sublist (white.erase u)
  inv : b = false → DfsInv g w grey
  blackU : b = false → Blackened g w grey u
  mono : b = false → ∀ x, Blackened g white grey x → Blackened g w grey x

/-- Postcondition of the children loop run from the grey parent node. -/
structure ChildPost (g : Graph) (white grey : List String) (cs : List String)
    (b : Bool) (w gr : List String) : Prop where
  onTrue : b = true → ∃ x, Relation.TransGen (Eg g) x x
  greyEq : b = false → gr = grey
  whiteSub : b = false → w.Sublist white
  inv : b = false → DfsInv g w grey
  mono : b = false → ∀ x, Blackened g white grey x → Blackened g w grey x
  blackCs : b = false → ∀ c ∈ cs, Blackened g w grey c

theorem dfsChildrenF_post (g : Graph)
    (hK : ∀ x y, Eg g x y → y ∈ keysOf g)
    (dfs : String → List String → List String → Option (Bool × List String × List String))
    (hdfs : ∀ c white grey b w gr, dfs c white grey = some (b, w, gr) →
      DfsInv g white grey → c ∈ white → List.Chain' (Eg g) (grey ++ [c]) →
      DfsPost g white grey c b w gr)
    (par : String) :
    ∀ (cs white grey₀ : List String) (b : Bool) (w gr : List String),
      dfsChildrenF dfs cs white (grey₀ ++ [par]) = some (b, w, gr) →
      DfsInv g white (grey₀ ++ [par]) →
      List.Chain' (Eg g) (grey₀ ++ [par]) →
      (∀ c ∈ cs, Eg g par c) →
      ChildPost g white (grey₀ ++ [par]) cs b w gr := by
  intro cs
  induction cs with
  | nil =>
    intro white grey₀ b w gr h hinv hch hcs
    simp only [dfsChildrenF, Option.some.injEq, Prod.mk.injEq] at h
    obtain ⟨hb, hw, hgr⟩ := h
    subst hb; subst hw; subst hgr
    exact ⟨fun hb => Bool.noConfusion hb, fun _ => rfl, fun _ => List.Sublist.refl _,
      fun _ => hinv, fun _ x hx => hx, fun _ c hc => absurd hc (List.not_mem_nil c)⟩
  | cons c cs ih =>
    intro white grey₀ b w gr h hinv hch hcs
    have hEc : Eg g par c := hcs c (List.mem_cons_self c cs)
    simp only [dfsChildrenF] at h
    by_cases hc : c ∈ white
    · rw [if_pos hc] at h
      split at h
      · cases h
      · -- child returned true
        rename_i w1 gr1 heq
        simp only [Option.some.injEq, Prod.mk.injEq] at h
        obtain ⟨hb, hw, hgr⟩ := h
        subst hb; subst hw; subst hgr
        have hchc : List.Chain' (Eg g) ((grey₀ ++ [par]) ++ [c]) :=
          chain'_snoc _ _ _ _ hch hEc
        have hpost := hdfs c white (grey₀ ++ [par]) _ _ _ heq hinv hc hchc
        exact ⟨fun _ => hpost.onTrue rfl, fun hb => Bool.noConfusion hb, fun hb => Bool.noConfusion hb,
          fun hb => Bool.noConfusion hb, fun hb => Bool.noConfusion hb, fun hb => Bool.noConfusion hb⟩
      · -- child returned false, loop continues
        rename_i w1 gr1 heq
        have hchc : List.Chain' (Eg g) ((grey₀ ++ [par]) ++ [c]) :=
          chain'_snoc _ _ _ _ hch hEc
        have hpost := hdfs c white (grey₀ ++ [par]) _ _ _ heq hinv hc hchc
        have hgr1 : gr1 = grey₀ ++ [par] := hpost.greyEq rfl
        have hsub1 : w1.Sublist (white.erase c) := hpost.whiteSub rfl
        have hinv1 : DfsInv g w1 (grey₀ ++ [par]) := hpost.inv rfl
        have hblc : Blackened g w1 (grey₀ ++ [par]) c := hpost.blackU rfl
        have hmono1 := hpost.mono rfl
        rw [hgr1] at h
        have hpost2 := ih w1 grey₀ b w gr h hinv1 hch
          (fun c' hc' => hcs c' (List.mem_cons_of_mem c hc'))
        refine ⟨hpost2.onTrue, hpost2.greyEq,
          fun hb => (hpost2.whiteSub hb).trans (hsub1.trans (List.erase_sublist _ _)),
          hpost2.inv, fun hb x hx => hpost2.mono hb x (hmono1 x hx), ?_⟩
        intro hb c' hc'
        rcases List.mem_cons.mp hc' with rfl | hc'
        · exact hpost2.mono hb c' hblc
        · exact hpost2.blackCs hb c' hc'
    · rw [if_neg hc] at h
      by_cases hg : c ∈ grey₀ ++ [par]
      · rw [if_pos hg] at h
        simp only [Option.some.injEq, Prod.mk.injEq] at h
        obtain ⟨hb, hw, hgr⟩ := h
        subst hb; subst hw; subst hgr
        refine ⟨fun _ => ?_, fun hb => Bool.noConfusion hb, fun hb => Bool.noConfusion hb,
          fun hb => Bool.noConfusion hb, fun hb => Bool.noConfusion hb, fun hb => Bool.noConfusion hb⟩
        have hrt : Relation.ReflTransGen (Eg g) c par :=
          chain'_reflTransGen_last _ _ _ _ hch hg
        exact ⟨c, Relation.TransGen.tail' hrt hEc⟩
      · rw [if_neg hg] at h
        have hpost2 := ih white grey₀ b w gr h hinv hch
          (fun c' hc' => hcs c' (List.mem_cons_of_mem c hc'))
        refine ⟨hpost2.onTrue, hpost2.greyEq, hpost2.whiteSub, hpost2.inv, hpost2.mono, ?_⟩
        intro hb c' hc'
        rcases List.mem_cons.mp hc' with rfl | hc'
        · exact ⟨hK par c' hEc, fun hx => hc ((hpost2.whiteSub hb).mem hx), hg⟩
        · exact hpost2.blackCs hb c' hc'

theorem dfsWithSetsF_post (g : Graph)
    (hK : ∀ x y, Eg g x y → y ∈ keysOf g) :
    ∀ (fuel : Nat) (u : String) (white grey : List String) (b : Bool) (w gr : List String),
      dfsWithSetsF g fuel u white grey = some (b, w, gr) →
      DfsInv g white grey → u ∈ white → List.Chain' (Eg g) (grey ++ [u]) →
      DfsPost g white grey u b w gr := by
  intro fuel
  induction fuel with
  | zero => intro u white grey b w gr h _ _ _; simp [dfsWithSetsF] at h
  | succ fuel ih =>
    intro u white grey b w gr h hinv hu hch
    have hug : u ∉ grey := hinv.disj u hu
    have hkU : u ∈ keysOf g := hinv.wKeys u hu
    simp only [dfsWithSetsF, if_neg hug] at h
    have hinv' : DfsInv g (white.erase u) (grey ++ [u]) := by
      refine ⟨hinv.ndW.erase u, fun x hx => hinv.wKeys x ((List.erase_sublist _ _).mem hx),
        ?_, ?_, ?_⟩
      · intro x hx
        have hx' := (hinv.ndW.mem_erase_iff).mp hx
        simp only [List.mem_append, List.mem_singleton]
        push_neg
        exact ⟨hinv.disj x hx'.2, hx'.1⟩
      · intro x hx y hy
        rw [blackened_enter_iff g white grey u hinv.ndW hu hug] at hx ⊢
        exact hinv.closed x hx y hy
      · intro x hx
        rw [blackened_enter_iff g white grey u hinv.ndW hu hug] at hx
        exact hinv.noCyc x hx
    split at h
    · cases h
    · -- children loop returned true
      rename_i w1 gr1 heq
      simp only [Option.some.injEq, Prod.mk.injEq] at h
      obtain ⟨hb, hw, hgr⟩ := h
      subst hb; subst hw; subst hgr
      have hpost := dfsChildrenF_post g hK _
        (fun c w' gr' b' wo go hr' hi hc hch' => ih c w' gr' b' wo go hr' hi hc hch')
        u (outgoingOf g u) (white.erase u) grey _ _ _ heq hinv' hch (fun c hc => hc)
      exact ⟨fun _ => hpost.onTrue rfl, fun hb => Bool.noConfusion hb, fun hb => Bool.noConfusion hb,
        fun hb => Bool.noConfusion hb, fun hb => Bool.noConfusion hb, fun hb => Bool.noConfusion hb⟩
    · -- children loop returned false
      rename_i w1 gr1 heq
      simp only [Option.some.injEq, Prod.mk.injEq] at h
      obtain ⟨hb, hw, hgr⟩ := h
      subst hb; subst hw; subst hgr
      have hpost := dfsChildrenF_post g hK _
        (fun c w' gr' b' wo go hr' hi hc hch' => ih c w' gr' b' wo go hr' hi hc hch')
        u (outgoingOf g u) (white.erase u) grey _ _ _ heq hinv' hch (fun c hc => hc)
      have hgr1 : gr1 = grey ++ [u] := hpost.greyEq rfl
      have hsub1 : w1.Sublist (white.erase u) := hpost.whiteSub rfl
      have hinv1 : DfsInv g w1 (grey ++ [u]) := hpost.inv rfl
      have hmono1 := hpost.mono rfl
      have hblack1 := hpost.blackCs rfl
      have hguw : u ∉ white.erase u := by
        intro hx
        exact absurd ((hinv.ndW.mem_erase_iff).mp hx).1 (by simp)
      have hBu : u ∉ w1 := fun hx => hguw (hsub1.mem hx)
      have hexit := blackened_exit_iff g w1 grey u hkU hBu hug
      have hgrE : gr1.erase u = grey := by
        rw [hgr1, List.erase_append_right _ hug, List.erase_cons_head, List.append_nil]
      have hinvOut : DfsInv g w1 grey := by
        refine ⟨hinv1.ndW, hinv1.wKeys, ?_, ?_, ?_⟩
        · intro x hx
          have hd := hinv1.disj x hx
          simp only [List.mem_append, List.mem_singleton] at hd
          push_neg at hd
          exact hd.1
        · intro x hx y hy
          rcases (hexit x).mp hx with hx' | rfl
          · exact (hexit y).mpr (Or.inl (hinv1.closed x hx' y hy))
          · exact (hexit y).mpr (Or.inl (hblack1 y hy))
        · intro x hx
          rcases (hexit x).mp hx with hx' | rfl
          · exact hinv1.noCyc x hx'
          · intro hcyc
            obtain ⟨c, hEc, hrt⟩ := (Relation.TransGen.head'_iff).mp hcyc
            have hbc : Blackened g w1 (grey ++ [x]) c := hblack1 c hEc
            have hbx : Blackened g w1 (grey ++ [x]) x :=
              blackened_reach g w1 (grey ++ [x]) hinv1.closed c x hbc hrt
            exact hbx.2.2 (by simp)
      refine ⟨fun hb => Bool.noConfusion hb, fun _ => hgrE, fun _ => hsub1, fun _ => hinvOut,
        fun _ => (hexit u).mpr (Or.inr rfl), ?_⟩
      intro _ x hx
      rw [← blackened_enter_iff g white grey u hinv.ndW hu hug] at hx
      exact (hexit x).mpr (Or.inl (hmono1 x hx))

/-! ### The driving while-loop -/

theorem cycleLoopF_true (g : Graph) :
    ∀ (fuel : Nat) (white grey : List String), cycleLoopF g fuel white grey true = true := by
  intro fuel
  induction fuel with
  | zero => intro white grey; rfl
  | succ fuel ih =>
    intro white grey
    cases white with
    | nil => rfl
    | cons u tl =>
      simp only [cycleLoopF]
      cases dfsWithSetsF g (tl.length + 1) u (u :: tl) grey with
      | none => rfl
      | some r1 =>
        obtain ⟨b1, w1, gr1⟩ := r1
        simp only [Bool.true_or]
        exact ih w1 gr1

theorem cycleLoopF_spec (g : Graph) (hK : ∀ x y, Eg g x y → y ∈ keysOf g) :
    ∀ (fuel : Nat) (white : List String), white.length + 1 ≤ fuel →
      DfsInv g white [] →
      ((cycleLoopF g fuel white [] false = true → ∃ x, Relation.TransGen (Eg g) x x) ∧
       (cycleLoopF g fuel white [] false = false → ∀ x, ¬ Relation.TransGen (Eg g) x x)) := by
  intro fuel
  induction fuel with
  | zero => intro white hlen _; omega
  | succ fuel ih =>
    intro white hlen hinv
    cases white with
    | nil =>
      refine ⟨fun h => Bool.noConfusion h, fun _ => ?_⟩
      intro x hcyc
      obtain ⟨b, _, hE⟩ := (Relation.TransGen.tail'_iff).mp hcyc
      exact hinv.noCyc x ⟨hK b x hE, by simp, by simp⟩ hcyc
    | cons u tl =>
      cases heq : dfsWithSetsF g (tl.length + 1) u (u :: tl) [] with
      | none =>
        have hs := dfsWithSetsF_isSome g (tl.length + 1) u (u :: tl) []
          (List.mem_cons_self u tl) (by simp)
        rw [heq] at hs
        cases hs
      | some r1 =>
        obtain ⟨b1, w1, gr1⟩ := r1
        have hpost := dfsWithSetsF_post g hK (tl.length + 1) u (u :: tl) [] b1 w1 gr1 heq
          hinv (List.mem_cons_self u tl) (by simp)
        have hloop : cycleLoopF g (fuel + 1) (u :: tl) [] false
            = cycleLoopF g fuel w1 gr1 (false || b1) := by
          simp only [cycleLoopF, heq]
        cases b1 with
        | true =>
          rw [hloop]
          simp only [Bool.false_or, cycleLoopF_true]
          exact ⟨fun _ => hpost.onTrue rfl, fun h => by cases h⟩
        | false =>
          have hgr1 : gr1 = [] := hpost.greyEq rfl
          have hsub1 : w1.Sublist tl := by
            have := hpost.whiteSub rfl
            rwa [List.erase_cons_head] at this
          have hlen1 : w1.length + 1 ≤ fuel := by
            have h1 := hsub1.length_le
            rw [List.length_cons] at hlen
            omega
          have hrec := ih w1 hlen1 (hpost.inv rfl)
          rw [hloop, hgr1]
          simp only [Bool.false_or]
          exact hrec

/-! ### Cycle transfer between the persisted and the rebuilt relations -/

theorem Feeds_target_mem (g : Graph) (a b : String) (h : Feeds g a b) : b ∈ keysOf g := by
  by_contra hb
  rw [Feeds, incomingOf, (jsLookup_eq_none_iff g b).mpr hb] at h
  simp at h

theorem transGen_Feeds_iff_Eg (g1 : Graph) (hnd : (keysOf g1).Nodup) :
    (∃ x, Relation.TransGen (Feeds g1) x x) ↔
      (∃ x, Relation.TransGen (Eg (rebuildOutgoing g1)) x x) := by
  constructor
  · rintro ⟨x, hcyc⟩
    have hxk : x ∈ keysOf g1 := by
      obtain ⟨b, _, hE⟩ := (Relation.TransGen.tail'_iff).mp hcyc
      exact Feeds_target_mem g1 b x hE
    refine ⟨x, ?_⟩
    have hlift : ∀ a b, Relation.TransGen (Feeds g1) a b → a ∈ keysOf g1 →
        Relation.TransGen (Eg (rebuildOutgoing g1)) a b := by
      intro a b h
      induction h with
      | single h1 =>
        intro ha
        exact Relation.TransGen.single ((Eg_rebuildOutgoing_iff g1 hnd _ _).mpr ⟨ha, h1⟩)
      | tail h1 h2 ih =>
        intro ha
        rename_i b c
        have hbk : b ∈ keysOf g1 := by
          obtain ⟨d, _, hE⟩ := (Relation.TransGen.tail'_iff).mp h1
          exact Feeds_target_mem g1 d b hE
        exact Relation.TransGen.tail (ih ha) ((Eg_rebuildOutgoing_iff g1 hnd _ _).mpr ⟨hbk, h2⟩)
    exact hlift x x hcyc hxk
  · rintro ⟨x, hcyc⟩
    refine ⟨x, hcyc.mono ?_⟩
    intro a b hE
    exact ((Eg_rebuildOutgoing_iff g1 hnd _ _).mp hE).2

/-! ### Rollback and key preservation through `willCreateCycle` -/

theorem keysOf_addIncoming (g : Graph) (s t : String) :
    keysOf (addIncoming g s t) = keysOf g :=
  keysOf_jsUpdate ..

theorem keysOf_spliceIncoming (g : Graph) (t : String) (i : Nat) :
    keysOf (spliceIncoming g t i) = keysOf g :=
  keysOf_jsUpdate ..

theorem incomingOf_addIncoming_self (g : Graph) (s t : String) (ht : t ∈ keysOf g) :
    incomingOf (addIncoming g s t) t = incomingOf g t ++ [s] := by
  have hs : (jsLookup g t).isSome := (jsLookup_isSome_iff g t).mpr ht
  rw [incomingOf, incomingOf, addIncoming, jsLookup_jsUpdate_self]
  cases hl : jsLookup g t with
  | none => rw [hl] at hs; cases hs
  | some s0 => rfl

theorem incomingOf_addIncoming_ne (g : Graph) (s t k : String) (h : k ≠ t) :
    incomingOf (addIncoming g s t) k = incomingOf g k := by
  rw [incomingOf, incomingOf, addIncoming, jsLookup_jsUpdate_ne _ _ _ _ h]

theorem addIncoming_not_mem (g : Graph) (s t : String) (ht : t ∉ keysOf g) :
    addIncoming g s t = g :=
  jsUpdate_not_mem _ _ _ ht

theorem incomingOf_spliceIncoming_self (g : Graph) (t : String) (i : Nat)
    (ht : t ∈ keysOf g) :
    incomingOf (spliceIncoming g t i) t = (incomingOf g t).eraseIdx i := by
  have hs : (jsLookup g t).isSome := (jsLookup_isSome_iff g t).mpr ht
  rw [incomingOf, incomingOf, spliceIncoming, jsLookup_jsUpdate_self]
  cases hl : jsLookup g t with
  | none => rw [hl] at hs; cases hs
  | some s0 => rfl

theorem incomingOf_spliceIncoming_ne (g : Graph) (t k : String) (i : Nat) (h : k ≠ t) :
    incomingOf (spliceIncoming g t i) k = incomingOf g k := by
  rw [incomingOf, incomingOf, spliceIncoming, jsLookup_jsUpdate_ne _ _ _ _ h]

theorem spliceIncoming_not_mem (g : Graph) (t : String) (i : Nat) (ht : t ∉ keysOf g) :
    spliceIncoming g t i = g :=
  jsUpdate_not_mem _ _ _ ht

theorem eraseIdx_append_length {α : Type} (l : List α) (a : α) :
    (l ++ [a]).eraseIdx l.length = l := by
  induction l with
  | nil => rfl
  | cons x l ih =>
    rw [List.cons_append, List.length_cons, List.eraseIdx_cons_succ, ih]

theorem keysOf_willCreateCycle (g : Graph) (s t : String) :
    keysOf (willCreateCycle g s t).2 = keysOf g := by
  rw [willCreateCycle]
  rw [keysOf_spliceIncoming, keysOf_rebuildOutgoing, keysOf_addIncoming]

/-- The hypothetical edge is rolled back: after `willCreateCycle` every
step's `incoming_connections` is exactly what it was before the call. -/
theorem incomingOf_willCreateCycle (g : Graph) (s t k : String) :
    incomingOf (willCreateCycle g s t).2 k = incomingOf g k := by
  rw [willCreateCycle]
  by_cases hk : k = t
  · subst hk
    by_cases ht : k ∈ keysOf g
    · have ht2 : k ∈ keysOf (rebuildOutgoing (addIncoming g s k)) := by
        rwa [keysOf_rebuildOutgoing, keysOf_addIncoming]
      rw [incomingOf_spliceIncoming_self _ _ _ ht2, incomingOf_rebuildOutgoing,
        incomingOf_addIncoming_self _ _ _ ht, eraseIdx_append_length]
    · have ht2 : k ∉ keysOf (rebuildOutgoing (addIncoming g s k)) := by
        rwa [keysOf_rebuildOutgoing, keysOf_addIncoming]
      rw [spliceIncoming_not_mem _ _ _ ht2, incomingOf_rebuildOutgoing,
        addIncoming_not_mem _ _ _ ht]
  · rw [incomingOf_spliceIncoming_ne _ _ _ _ hk, incomingOf_rebuildOutgoing,
      incomingOf_addIncoming_ne _ _ _ _ hk]

/-- Core characterization of `willCreateCycle`: the returned flag is true
exactly when the graph with the hypothetical edge added has a cycle. -/
theorem willCreateCycle_fst_iff (g : Graph) (s t : String) (hnd : (keysOf g).Nodup) :
    ((willCreateCycle g s t).1 = true ↔
      ∃ x, Relation.TransGen (Feeds (addIncoming g s t)) x x) := by
  have hkeys : keysOf (rebuildOutgoing (addIncoming g s t)) = keysOf g := by
    rw [keysOf_rebuildOutgoing, keysOf_addIncoming]
  have hnd1 : (keysOf (addIncoming g s t)).Nodup := by rwa [keysOf_addIncoming]
  have hK : ∀ x y, Eg (rebuildOutgoing (addIncoming g s t)) x y →
      y ∈ keysOf (rebuildOutgoing (addIncoming g s t)) := by
    intro x y hE
    rw [keysOf_rebuildOutgoing]
    exact Eg_rebuildOutgoing_target_mem _ x y hE
  have hinv : DfsInv (rebuildOutgoing (addIncoming g s t))
      (keysOf (rebuildOutgoing (addIncoming g s t))) [] := by
    refine ⟨by rw [hkeys]; exact hnd, fun x hx => hx, fun x _ => by simp, ?_, ?_⟩
    · rintro x ⟨h1, h2, _⟩
      exact absurd h1 h2
    · rintro x ⟨h1, h2, _⟩
      exact absurd h1 h2
  have hspec := cycleLoopF_spec (rebuildOutgoing (addIncoming g s t)) hK
    ((keysOf (rebuildOutgoing (addIncoming g s t))).length + 1)
    (keysOf (rebuildOutgoing (addIncoming g s t))) (le_refl _) hinv
  have hfst : (willCreateCycle g s t).1
      = cycleLoopF (rebuildOutgoing (addIncoming g s t))
        ((keysOf (rebuildOutgoing (addIncoming g s t))).length + 1)
        (keysOf (rebuildOutgoing (addIncoming g s t))) [] false := rfl
  rw [hfst, transGen_Feeds_iff_Eg _ hnd1]
  constructor
  · exact hspec.1
  · intro hcyc
    cases hb : cycleLoopF (rebuildOutgoing (addIncoming g s t))
        ((keysOf (rebuildOutgoing (addIncoming g s t))).length + 1)
        (keysOf (rebuildOutgoing (addIncoming g s t))) [] false with
    | true => rfl
    | false =>
      obtain ⟨x, hx⟩ := hcyc
      exact absurd hx (hspec.2 hb x)

/-! ### The connect flow -/

theorem transGen_Feeds_congr (h1 h2 : Graph)
    (hinc : ∀ k, incomingOf h1 k = incomingOf h2 k) (a b : String) :
    Relation.TransGen (Feeds h1) a b ↔ Relation.TransGen (Feeds h2) a b := by
  constructor <;> intro h
  · refine h.mono ?_
    intro x y hx
    rw [Feeds, ← hinc y]
    exact hx
  · refine h.mono ?_
    intro x y hx
    rw [Feeds, hinc y]
    exact hx

theorem connect_ok_core (g g' : Graph) (s t : String)
    (h : connect g s t = ConnectResult.ok g') :
    keysOf g' = keysOf g ∧
    (∀ k, incomingOf g' k = incomingOf (addIncoming g s t) k) ∧
    (willCreateCycle g s t).1 = false := by
  simp only [connect] at h
  by_cases hdup : s ∈ incomingOf g t
  · rw [if_pos hdup] at h; cases h
  · rw [if_neg hdup] at h
    cases hb : (willCreateCycle g s t).1 with
    | true => simp [hb] at h
    | false =>
      simp only [hb, Bool.false_eq_true, if_false, ConnectResult.ok.injEq] at h
      have hdup2 : s ∉ incomingOf (willCreateCycle g s t).2 t := by
        rw [incomingOf_willCreateCycle]
        exact hdup
      rw [makeConnection, if_neg hdup2] at h
      subst h
      refine ⟨?_, ?_, rfl⟩
      · rw [keysOf_addIncoming, keysOf_willCreateCycle]
      · intro k
        by_cases hk : k = t
        · subst hk
          by_cases ht : k ∈ keysOf g
          · have ht2 : k ∈ keysOf (willCreateCycle g s k).2 := by
              rwa [keysOf_willCreateCycle]
            rw [incomingOf_addIncoming_self _ _ _ ht2, incomingOf_willCreateCycle,
              incomingOf_addIncoming_self _ _ _ ht]
          · have ht2 : k ∉ keysOf (willCreateCycle g s k).2 := by
              rwa [keysOf_willCreateCycle]
            rw [addIncoming_not_mem _ _ _ ht2, incomingOf_willCreateCycle,
              addIncoming_not_mem _ _ _ ht]
        · rw [incomingOf_addIncoming_ne _ _ _ _ hk, incomingOf_willCreateCycle,
            incomingOf_addIncoming_ne _ _ _ _ hk]

theorem connect_ok_acyclic (g g' : Graph) (s t : String) (hnd : (keysOf g).Nodup)
    (h : connect g s t = ConnectResult.ok g') :
    (keysOf g').Nodup ∧ ∀ x, ¬ Relation.TransGen (Feeds g') x x := by
  obtain ⟨hkeys, hinc, hfalse⟩ := connect_ok_core g g' s t h
  refine ⟨by rwa [hkeys], ?_⟩
  intro x hcyc
  have h1 : ∃ y, Relation.TransGen (Feeds (addIncoming g s t)) y y :=
    ⟨x, (transGen_Feeds_congr _ _ hinc x x).mp hcyc⟩
  have h2 := (willCreateCycle_fst_iff g s t hnd).mpr h1
  rw [hfalse] at h2
  cases h2

/-! ### `deleteStep` -/

theorem jsLookup_deleteStepStrip (g : Graph) (uuid k : String) :
    jsLookup (deleteStepStrip g uuid) k = (jsLookup g k).map
      (fun s => { s with incoming_connections := s.incoming_connections.erase uuid }) := by
  induction g with
  | nil => rfl
  | cons hd tl ih =>
    obtain ⟨k', s⟩ := hd
    by_cases h : k' = k
    · simp [deleteStepStrip, jsLookup, h]
    · simp only [deleteStepStrip, List.map_cons, jsLookup, h, if_false] at ih ⊢
      exact ih

theorem keysOf_deleteStepStrip (g : Graph) (uuid : String) :
    keysOf (deleteStepStrip g uuid) = keysOf g := by
  simp [deleteStepStrip, keysOf, List.map_map, Function.comp]

theorem keysOf_jsDelete {α : Type} (m : List (String × α)) (k : String) :
    keysOf (jsDelete m k) = (keysOf m).erase k := by
  induction m with
  | nil => rfl
  | cons hd tl ih =>
    obtain ⟨k', v⟩ := hd
    by_cases h : k' = k
    · subst h
      simp [jsDelete, List.erase_cons_head]
    · rw [keysOf_cons, List.erase_cons_tail]
      · simp [jsDelete, h, ih]
      · simp [h]

theorem jsLookup_jsDelete_ne {α : Type} (m : List (String × α)) (k k' : String)
    (h : k' ≠ k) : jsLookup (jsDelete m k) k' = jsLookup m k' := by
  induction m with
  | nil => rfl
  | cons hd tl ih =>
    obtain ⟨k0, v⟩ := hd
    by_cases h0 : k0 = k
    · subst h0
      simp [jsDelete, jsLookup, Ne.symm h]
    · by_cases h1 : k0 = k'
      · subst h1
        simp [jsDelete, jsLookup, h0]
      · simp [jsDelete, jsLookup, h0, h1, ih]

theorem jsLookup_jsDelete_self {α : Type} (m : List (String × α)) (k : String)
    (hnd : (keysOf m).Nodup) : jsLookup (jsDelete m k) k = none := by
  induction m with
  | nil => rfl
  | cons hd tl ih =>
    obtain ⟨k0, v⟩ := hd
    rw [keysOf_cons, List.nodup_cons] at hnd
    by_cases h0 : k0 = k
    · subst h0
      simp only [jsDelete, if_pos rfl]
      exact (jsLookup_eq_none_iff tl k0).mpr hnd.1
    · simp only [jsDelete, if_neg h0, jsLookup, if_neg h0]
      exact ih hnd.2

theorem deleteStepStrip_of_clean (g : Graph) (uuid : String)
    (hclean : ∀ kv ∈ g, uuid ∉ kv.2.incoming_connections) :
    deleteStepStrip g uuid = g := by
  induction g with
  | nil => rfl
  | cons kv tl ih =>
    rw [deleteStepStrip, List.map_cons]
    rw [deleteStepStrip] at ih
    rw [ih (fun kv' hkv' => hclean kv' (List.mem_cons_of_mem kv hkv'))]
    rw [List.erase_of_not_mem (hclean kv (List.mem_cons_self kv tl))]

/-! ### `validatePipelineJSON`: search lemmas -/

/-- Two steps of the document conflict: the first is notebook-kind and
another step with a different uuid has the same backing file (the second
is then notebook-kind as well, having the same path). -/
def StepConflict (g : Graph) (s o : Step) : Prop :=
  (∃ k, (k, s) ∈ g) ∧ (∃ k, (k, o) ∈ g) ∧
  extensionFromFilename s.file_path = "ipynb" ∧
  extensionFromFilename o.file_path = "ipynb" ∧
  s.uuid ≠ o.uuid ∧ o.file_path = s.file_path

theorem findOther_some (step : Step) :
    ∀ (l : Graph) (o : Step), findOther step l = some o →
      (∃ k, (k, o) ∈ l) ∧ step.uuid ≠ o.uuid ∧ o.file_path = step.file_path := by
  intro l
  induction l with
  | nil => intro o h; cases h
  | cons kv rest ih =>
    intro o h
    obtain ⟨k0, s0⟩ := kv
    rw [findOther] at h
    by_cases h1 : step.uuid = s0.uuid
    · rw [if_pos h1] at h
      obtain ⟨⟨k, hk⟩, h2, h3⟩ := ih o h
      exact ⟨⟨k, List.mem_cons_of_mem _ hk⟩, h2, h3⟩
    · rw [if_neg h1] at h
      by_cases h2 : s0.file_path = step.file_path
      · rw [if_pos h2] at h
        obtain rfl := Option.some.injEq .. ▸ h
        exact ⟨⟨k0, List.mem_cons_self _ _⟩, h1, h2⟩
      · rw [if_neg h2] at h
        obtain ⟨⟨k, hk⟩, h3, h4⟩ := ih o h
        exact ⟨⟨k, List.mem_cons_of_mem _ hk⟩, h3, h4⟩

theorem findOther_none (step : Step) :
    ∀ (l : Graph), findOther step l = none →
      ∀ kv ∈ l, step.uuid = kv.2.uuid ∨ kv.2.file_path ≠ step.file_path := by
  intro l
  induction l with
  | nil => intro _ kv hkv; cases hkv
  | cons kv0 rest ih =>
    intro h kv hkv
    obtain ⟨k0, s0⟩ := kv0
    rw [findOther] at h
    by_cases h1 : step.uuid = s0.uuid
    · rw [if_pos h1] at h
      rcases List.mem_cons.mp hkv with rfl | hkv'
      · exact Or.inl h1
      · exact ih h kv hkv'
    · rw [if_neg h1] at h
      by_cases h2 : s0.file_path = step.file_path
      · rw [if_pos h2] at h; cases h
      · rw [if_neg h2] at h
        rcases List.mem_cons.mp hkv with rfl | hkv'
        · exact Or.inr h2
        · exact ih h kv hkv'

theorem findConflictAux_some (g : Graph) :
    ∀ (l : Graph) (s o : Step), findConflictAux g l = some (s, o) →
      (∃ k, (k, s) ∈ l) ∧ extensionFromFilename s.file_path = "ipynb" ∧
      findOther s g = some o := by
  intro l
  induction l with
  | nil => intro s o h; cases h
  | cons kv rest ih =>
    intro s o h
    obtain ⟨k0, s0⟩ := kv
    rw [findConflictAux] at h
    by_cases h1 : extensionFromFilename s0.file_path = "ipynb"
    · rw [if_pos h1] at h
      cases hfo : findOther s0 g with
      | some o0 =>
        rw [hfo] at h
        obtain ⟨rfl, rfl⟩ := Prod.mk.injEq .. ▸ Option.some.injEq .. ▸ h
        exact ⟨⟨k0, List.mem_cons_self _ _⟩, h1, hfo⟩
      | none =>
        rw [hfo] at h
        obtain ⟨⟨k, hk⟩, h2, h3⟩ := ih s o h
        exact ⟨⟨k, List.mem_cons_of_mem _ hk⟩, h2, h3⟩
    · rw [if_neg h1] at h
      obtain ⟨⟨k, hk⟩, h2, h3⟩ := ih s o h
      exact ⟨⟨k, List.mem_cons_of_mem _ hk⟩, h2, h3⟩

theorem findConflictAux_none (g : Graph) :
    ∀ (l : Graph), findConflictAux g l = none →
      ∀ kv ∈ l, extensionFromFilename kv.2.file_path = "ipynb" →
        findOther kv.2 g = none := by
  intro l
  induction l with
  | nil => intro _ kv hkv; cases hkv
  | cons kv0 rest ih =>
    intro h kv hkv hext
    obtain ⟨k0, s0⟩ := kv0
    rw [findConflictAux] at h
    by_cases h1 : extensionFromFilename s0.file_path = "ipynb"
    · rw [if_pos h1] at h
      cases hfo : findOther s0 g with
      | some o0 => rw [hfo] at h; cases h
      | none =>
        rw [hfo] at h
        rcases List.mem_cons.mp hkv with rfl | hkv'
        · exact hfo
        · exact ih h kv hkv' hext
    · rw [if_neg h1] at h
      rcases List.mem_cons.mp hkv with rfl | hkv'
      · exact absurd hext h1
      · exact ih h kv hkv' hext

/-! ### `encodeJSON` / `decodeJSON`: fold lemmas -/

theorem encodeJSON_foldl (g : Graph) : ∀ (acc : Graph),
    (∀ kv ∈ g, kv.2.uuid = kv.1) → (keysOf g).Nodup →
    (∀ k ∈ keysOf g, k ∉ keysOf acc) →
    g.foldl (fun a kv => jsSet a kv.2.uuid (encodeStep kv.2)) acc
      = acc ++ g.map (fun kv => (kv.1, encodeStep kv.2)) := by
  induction g with
  | nil => intro acc _ _ _; simp
  | cons kv tl ih =>
    intro acc hco hnd hdisj
    rw [keysOf_cons] at hnd
    rw [List.foldl_cons]
    have hk1 : kv.2.uuid = kv.1 := hco kv (List.mem_cons_self kv tl)
    have hk2 : kv.2.uuid ∉ keysOf acc := by
      rw [hk1]
      exact hdisj kv.1 (by rw [keysOf_cons]; exact List.mem_cons_self _ _)
    rw [jsSet_not_mem _ _ _ hk2, hk1]
    rw [ih (acc ++ [(kv.1, encodeStep kv.2)])
      (fun kv' hkv' => hco kv' (List.mem_cons_of_mem kv hkv'))
      (List.nodup_cons.mp hnd).2 ?_]
    · simp
    · intro k hk
      rw [keysOf_append, List.mem_append]
      push_neg
      constructor
      · exact hdisj k (by rw [keysOf_cons]; exact List.mem_cons_of_mem _ hk)
      · intro hmem
        rw [keysOf_cons] at hmem
        simp only [keysOf_nil, List.mem_cons, List.mem_nil_iff, or_false] at hmem
        exact absurd (hmem ▸ hk) (List.nodup_cons.mp hnd).1

theorem decodeJSON_foldl (doc : Graph) : ∀ (acc : Graph),
    (keysOf doc).Nodup →
    (∀ k ∈ keysOf doc, k ∉ keysOf acc) →
    decodeJSON doc acc = acc ++ doc.map (fun kv => (kv.1, decodeStep kv.2)) := by
  induction doc with
  | nil => intro acc _ _; simp [decodeJSON]
  | cons kv tl ih =>
    intro acc hnd hdisj
    rw [keysOf_cons] at hnd
    simp only [decodeJSON, List.foldl_cons] at ih ⊢
    have hk2 : kv.1 ∉ keysOf acc :=
      hdisj kv.1 (by rw [keysOf_cons]; exact List.mem_cons_self _ _)
    rw [jsSet_not_mem _ _ _ hk2]
    rw [ih (acc ++ [(kv.1, decodeStep kv.2)]) (List.nodup_cons.mp hnd).2 ?_]
    · simp
    · intro k hk
      rw [keysOf_append, List.mem_append]
      push_neg
      constructor
      · exact hdisj k (by rw [keysOf_cons]; exact List.mem_cons_of_mem _ hk)
      · intro hmem
        rw [keysOf_cons] at hmem
        simp only [keysOf_nil, List.mem_cons, List.mem_nil_iff, or_false] at hmem
        exact absurd (hmem ▸ hk) (List.nodup_cons.mp hnd).1

theorem not_mem_keysOf_stripMeta (md : List (String × JValue)) (k : String)
    (hk : underscorePrefixed k = true) : k ∉ keysOf (stripMeta md) := by
  intro hmem
  rw [keysOf, List.mem_map] at hmem
  obtain ⟨p, hp, rfl⟩ := hmem
  rw [stripMeta, List.mem_filter] at hp
  rw [hk] at hp
  cases hp.2

theorem decodeStep_encodeStep (s : Step) :
    decodeStep (encodeStep s) = { s with
      meta_data := stripMeta s.meta_data
        ++ [("_drag_count", JValue.num 0), ("_dragged", JValue.bool false)],
      outgoing_connections := none } := by
  rw [decodeStep, encodeStep]
  have h1 : "_drag_count" ∉ keysOf (stripMeta s.meta_data) :=
    not_mem_keysOf_stripMeta _ _ (by decide)
  rw [jsSet_not_mem _ _ _ h1]
  have h2 : "_dragged" ∉ keysOf (stripMeta s.meta_data ++ [("_drag_count", JValue.num 0)]) := by
    rw [keysOf_append, List.mem_append]
    push_neg
    exact ⟨not_mem_keysOf_stripMeta _ _ (by decide), by decide⟩
  rw [jsSet_not_mem _ _ _ h2]
  simp

/-! ### Concrete example pipelines -/

/-- A fresh step as `createStep` would build it (title and uuid shared for
brevity, no connections beyond `inc`). -/
def mkStep (u path : String) (inc : List String) : Step :=
  { uuid := u, title := u, file_path := path, incoming_connections := inc }

/-- Two steps with the connection a → b. -/
def exAB : Graph := [("a", mkStep "a" "a.py" []), ("b", mkStep "b" "b.py" ["a"])]

/-- Two disjoint components: `a`, `b` unconnected, and a 2-cycle `c` ↔ `d`
unreachable from the first step enumerated. -/
def exDisconnected : Graph :=
  [("a", mkStep "a" "a.py" []), ("b", mkStep "b" "b.py" []),
   ("c", mkStep "c" "c.py" ["d"]), ("d", mkStep "d" "d.py" ["c"])]

/-- The chain a → b → c. -/
def exChain : Graph :=
  [("a", mkStep "a" "a.py" []), ("b", mkStep "b" "b.py" ["a"]),
   ("c", mkStep "c" "c.py" ["b"])]

/-- The graph `exChain` after `deleteStep("b")`. -/
def exChainDeleted : Graph :=
  [("a", mkStep "a" "a.py" []), ("c", mkStep "c" "c.py" [])]

/-- The graph `exChain` after a successful `connect("a", "c")` (incoming connection
added, outgoing connections left rebuilt by the cycle check). -/
def exChainPlus : Graph :=
  [("a", { (mkStep "a" "a.py" []) with outgoing_connections := some ["b", "c"] }),
   ("b", { (mkStep "b" "b.py" ["a"]) with outgoing_connections := some ["c"] }),
   ("c", { (mkStep "c" "c.py" ["b", "a"]) with outgoing_connections := some [] })]

/-- A single step holding a dangling incoming reference. -/
def exDangling : Graph := [("a", mkStep "a" "a.py" ["ghost"])]

/-- The graph `exDangling` after the strip loop of `deleteStep("ghost")`. -/
def exDanglingStripped : Graph := [("a", mkStep "a" "a.py" [])]

/-- Two notebook steps sharing one notebook file. -/
def exConflict : Graph :=
  [("s1", mkStep "s1" "shared.ipynb" []), ("s2", mkStep "s2" "shared.ipynb" [])]

/-- Two script steps sharing one file: allowed. -/
def exScripts : Graph :=
  [("s1", mkStep "s1" "shared.py" []), ("s2", mkStep "s2" "shared.py" [])]

/-- A step carrying runtime drag state and a derived outgoing list. -/
def exMetaStep : Step :=
  { uuid := "m", title := "M", file_path := "m.ipynb",
    incoming_connections := ["x"], outgoing_connections := some ["y"],
    meta_data := [("position", JValue.numPair 3 4), ("_dragged", JValue.bool true),
      ("_drag_count", JValue.num 5), ("hidden", JValue.bool false)] }

/-- A pipeline whose first step is `exMetaStep`. -/
def exMeta : Graph := [("m", exMetaStep), ("x", mkStep "x" "x.py" [])]

/-! ### A helper: a negative cycle check certifies acyclicity -/

theorem Feeds_mono_addIncoming (g : Graph) (s t a b : String) (h : Feeds g a b) :
    Feeds (addIncoming g s t) a b := by
  by_cases hb : b = t
  · subst hb
    by_cases ht : b ∈ keysOf g
    · rw [Feeds, incomingOf_addIncoming_self _ _ _ ht]
      exact List.mem_append_left _ h
    · rw [Feeds, addIncoming_not_mem _ _ _ ht]
      exact h
  · rw [Feeds, incomingOf_addIncoming_ne _ _ _ _ hb]
    exact h

theorem acyclic_of_wcc_false (g : Graph) (s t : String) (hnd : (keysOf g).Nodup)
    (h : (willCreateCycle g s t).1 = false) :
    ∀ x, ¬ Relation.TransGen (Feeds g) x x := by
  intro x hcyc
  have h1 : ∃ y, Relation.TransGen (Feeds (addIncoming g s t)) y y :=
    ⟨x, hcyc.mono (fun a b hf => Feeds_mono_addIncoming g s t a b hf)⟩
  have h2 := (willCreateCycle_fst_iff g s t hnd).mpr h1
  rw [h] at h2
  cases h2

/-! ### The claims -/

/-- C1: starting from an acyclic graph, every sequence of successful
`connect` operations (each accepted addition of a source uuid to a target
step's `incoming_connections`) leaves a graph in which no step reaches
itself through `incoming_connections`. -/
theorem connect_sequence_preserves_acyclicity (g g' : Graph)
    (ops : List (String × String))
    (hnd : (keysOf g).Nodup)
    (hacyc : ∀ x, ¬ Relation.TransGen (Feeds g) x x)
    (hrun : connectOps g ops = some g') :
    ∀ x, ¬ Relation.TransGen (Feeds g') x x := by
  induction ops generalizing g with
  | nil =>
    simp only [connectOps, Option.some.injEq] at hrun
    subst hrun
    exact hacyc
  | cons p ps ih =>
    cases hc : connect g p.1 p.2 with
    | ok g1 =>
      simp only [connectOps, hc] at hrun
      obtain ⟨hnd1, hacyc1⟩ := connect_ok_acyclic g g1 p.1 p.2 hnd hc
      exact ih g1 hnd1 hacyc1 hrun
    | duplicateConnectionError g1 =>
      simp only [connectOps, hc] at hrun
      cases hrun
    | cycleError g1 =>
      simp only [connectOps, hc] at hrun
      cases hrun

theorem connect_sequence_preserves_acyclicity_witness :
    ¬ Relation.TransGen (Feeds exChainPlus) "a" "a" :=
  connect_sequence_preserves_acyclicity exChain exChainPlus [("a", "c")]
    (by decide) (acyclic_of_wcc_false exChain "a" "b" (by decide) (by decide))
    (by decide) "a"

/-- C2: for existing step uuids, `willCreateCycle(s, t)` returns true
exactly when the graph with the edge s → t hypothetically added contains a
cycle; in particular (second conjunct) it returns true when the cycle lies
in a component unreachable from the first step enumerated, because the
search keeps starting at unvisited steps until the white set is empty. -/
theorem willCreateCycle_iff_cycle (g : Graph) (s t : String)
    (hnd : (keysOf g).Nodup) (_hs : s ∈ keysOf g) (_ht : t ∈ keysOf g) :
    ((willCreateCycle g s t).1 = true ↔
      ∃ x, Relation.TransGen (Feeds (addIncoming g s t)) x x) ∧
    (willCreateCycle exDisconnected "a" "b").1 = true :=
  ⟨willCreateCycle_fst_iff g s t hnd, by decide⟩

theorem willCreateCycle_iff_cycle_witness :
    (willCreateCycle exDisconnected "a" "b").1 = true :=
  (willCreateCycle_iff_cycle exDisconnected "a" "b" (by decide) (by decide) (by decide)).2

/-- C3 counterexample: with a → b present, `willCreateCycle("b", "a")`
correctly rejects the reverse edge but is NOT side-effect-free on the full
step state: the rebuilt `outgoing_connections` fields (including the
hypothetical edge's contribution) are left behind, so the state after the
call differs from the state before it. -/
theorem willCreateCycle_not_state_preserving :
    (willCreateCycle exAB "b" "a").2 ≠ exAB := by decide

/-- C3 (amended): for steps A, B with A already in B's incoming
connections (and the reverse connection absent, as the duplicate check
otherwise fires first), `connect(B, A)` fails with `CycleError` and every
step's `incoming_connections` is exactly as before the call; only the
derived, never-persisted `outgoing_connections` fields are left rebuilt. -/
theorem connect_cycle_rejection (g : Graph) (A B : String)
    (hnd : (keysOf g).Nodup) (hA : A ∈ keysOf g)
    (hAB : A ∈ incomingOf g B) (hBA : B ∉ incomingOf g A) :
    connect g B A = ConnectResult.cycleError (willCreateCycle g B A).2 ∧
    ∀ k, incomingOf (willCreateCycle g B A).2 k = incomingOf g k := by
  have hne : B ≠ A := by
    intro he
    subst he
    exact hBA hAB
  have hcyc : (willCreateCycle g B A).1 = true := by
    rw [willCreateCycle_fst_iff g B A hnd]
    refine ⟨A, ?_⟩
    have h1 : Feeds (addIncoming g B A) A B := by
      rw [Feeds, incomingOf_addIncoming_ne g B A B hne]
      exact hAB
    have h2 : Feeds (addIncoming g B A) B A := by
      rw [Feeds, incomingOf_addIncoming_self g B A hA]
      simp
    exact Relation.TransGen.head h1 (Relation.TransGen.single h2)
  refine ⟨?_, fun k => incomingOf_willCreateCycle g B A k⟩
  simp [connect, hBA, hcyc]

theorem connect_cycle_rejection_witness :
    connect exAB "b" "a" = ConnectResult.cycleError (willCreateCycle exAB "b" "a").2 :=
  (connect_cycle_rejection exAB "a" "b" (by decide) (by decide) (by decide) (by decide)).1

/-- C4: for an existing step uuid X, `connect(X, X)` never succeeds, and
whatever error it signals leaves X's `incoming_connections` unchanged: the
self-edge is never added. -/
theorem connect_self_always_fails (g : Graph) (X : String)
    (hnd : (keysOf g).Nodup) (hX : X ∈ keysOf g) :
    (∀ gr, connect g X X ≠ ConnectResult.ok gr) ∧
    (∀ gr, (connect g X X = ConnectResult.duplicateConnectionError gr ∨
        connect g X X = ConnectResult.cycleError gr) →
      incomingOf gr X = incomingOf g X) := by
  by_cases hdup : X ∈ incomingOf g X
  · have hc : connect g X X = ConnectResult.duplicateConnectionError g := by
      simp [connect, hdup]
    refine ⟨fun gr he => ?_, fun gr hor => ?_⟩
    · rw [hc] at he; cases he
    · rcases hor with he | he <;> rw [hc] at he
      · injection he with h
        subst h
        rfl
      · cases he
  · have hcyc : (willCreateCycle g X X).1 = true := by
      rw [willCreateCycle_fst_iff g X X hnd]
      refine ⟨X, Relation.TransGen.single ?_⟩
      rw [Feeds, incomingOf_addIncoming_self g X X hX]
      simp
    have hc : connect g X X = ConnectResult.cycleError (willCreateCycle g X X).2 := by
      simp [connect, hdup, hcyc]
    refine ⟨fun gr he => ?_, fun gr hor => ?_⟩
    · rw [hc] at he; cases he
    · rcases hor with he | he <;> rw [hc] at he
      · cases he
      · injection he with h
        subst h
        exact incomingOf_willCreateCycle g X X X

theorem connect_self_always_fails_witness :
    connect exAB "a" "a" ≠ ConnectResult.ok exAB :=
  (connect_self_always_fails exAB "a" (by decide) (by decide)).1 exAB

/-- C5: when the source is already among the target's incoming
connections, the connect flow signals the duplicate (alert in the handler,
modelled as `duplicateConnectionError`) and leaves the graph untouched,
and `makeConnection` itself refuses to push a second copy. -/
theorem connect_duplicate_rejected (g : Graph) (s t : String)
    (hdup : s ∈ incomingOf g t) :
    connect g s t = ConnectResult.duplicateConnectionError g ∧
    makeConnection g s t = g := by
  constructor
  · simp [connect, hdup]
  · simp [makeConnection, hdup]

theorem connect_duplicate_rejected_witness :
    connect exAB "a" "b" = ConnectResult.duplicateConnectionError exAB :=
  (connect_duplicate_rejected exAB "a" "b" (by decide)).1

/-- C6: deleting an existing step removes its entry from the steps object
and strips its uuid from every remaining step's incoming connections (each
list holds a uuid at most once); in particular, in the chain a → b → c,
deleting b leaves c with empty incoming connections: b is removed, not
replaced by a. -/
theorem deleteStep_cascades (g : Graph) (U : String)
    (hnd : (keysOf g).Nodup) (hU : U ∈ keysOf g)
    (hone : ∀ kv ∈ g, kv.2.incoming_connections.Nodup) :
    (∃ g', deleteStep g U = DeleteResult.ok g' ∧
      keysOf g' = (keysOf g).erase U ∧
      (∀ k s, jsLookup g' k = some s →
        ∃ s0, jsLookup g k = some s0 ∧
          s = { s0 with incoming_connections := s0.incoming_connections.erase U } ∧
          U ∉ s.incoming_connections)) ∧
    deleteStep exChain "b" = DeleteResult.ok exChainDeleted := by
  constructor
  · have hU1 : U ∈ keysOf (deleteStepStrip g U) := by rwa [keysOf_deleteStepStrip]
    have hsome : (jsLookup (deleteStepStrip g U) U).isSome :=
      (jsLookup_isSome_iff _ _).mpr hU1
    cases hl : jsLookup (deleteStepStrip g U) U with
    | none => rw [hl] at hsome; cases hsome
    | some s0 =>
      refine ⟨jsDelete (deleteStepStrip g U) U, ?_, ?_, ?_⟩
      · simp [deleteStep, hl]
      · rw [keysOf_jsDelete, keysOf_deleteStepStrip]
      · intro k s hk
        by_cases hkU : k = U
        · subst hkU
          rw [jsLookup_jsDelete_self _ _ (by rwa [keysOf_deleteStepStrip])] at hk
          cases hk
        · rw [jsLookup_jsDelete_ne _ _ _ hkU, jsLookup_deleteStepStrip] at hk
          cases hg : jsLookup g k with
          | none => rw [hg] at hk; cases hk
          | some s1 =>
            rw [hg] at hk
            simp only [Option.map_some', Option.some.injEq] at hk
            refine ⟨s1, rfl, hk.symm, ?_⟩
            have hnod := hone (k, s1) (jsLookup_mem _ _ _ hg)
            rw [← hk]
            intro hmem
            exact absurd ((List.Nodup.mem_erase_iff hnod).mp hmem).1 (by simp)
  · decide

theorem deleteStep_cascades_witness :
    deleteStep exChain "b" = DeleteResult.ok exChainDeleted :=
  (deleteStep_cascades exChain "b" (by decide) (by decide) (by decide)).2

/-- C7 counterexample: deleting a uuid that is not a key of the steps
object but is referenced by a step's `incoming_connections` first strips
that reference and only then raises, leaving the graph partially mutated
rather than unchanged. -/
theorem deleteStep_missing_mutates :
    deleteStep exDangling "ghost" = DeleteResult.typeError exDanglingStripped ∧
    exDanglingStripped ≠ exDangling := by decide

/-- C7 (amended): deleting a uuid absent from the steps object raises a
`TypeError` (the model's rendering of `NotFoundError`); when no step's
incoming connections reference that uuid — the well-formed case — the
graph is left completely unchanged.  (When dangling references exist they
are stripped before the error is raised, which the counterexample
records.) -/
theorem deleteStep_missing_uuid (g : Graph) (U : String)
    (hU : U ∉ keysOf g)
    (hclean : ∀ kv ∈ g, U ∉ kv.2.incoming_connections) :
    deleteStep g U = DeleteResult.typeError g := by
  have hstrip := deleteStepStrip_of_clean g U hclean
  have hnone : jsLookup g U = none := (jsLookup_eq_none_iff g U).mpr hU
  simp [deleteStep, hstrip, hnone]

theorem deleteStep_missing_uuid_witness :
    deleteStep exAB "zz" = DeleteResult.typeError exAB :=
  deleteStep_missing_uuid exAB "zz" (by decide) (by decide)

/-- C8: `validatePipelineJSON` returns at most one error; whenever two
notebook-kind steps with different uuids share a `file_path` it returns
`valid: false` with a single error naming an actual conflicting pair (it
stops scanning after the first conflict); with no notebook conflict it
returns `valid: true` with no errors — in particular (last conjunct) two
script steps sharing a path produce no error. -/
theorem validatePipelineJSON_spec (g : Graph) :
    ((validatePipelineJSON g).2.length ≤ 1) ∧
    ((∃ s o, StepConflict g s o) →
      (validatePipelineJSON g).1 = false ∧
      ∃ s o, StepConflict g s o ∧
        (validatePipelineJSON g).2 = [validationMessage s o]) ∧
    ((¬ ∃ s o, StepConflict g s o) → validatePipelineJSON g = (true, [])) ∧
    validatePipelineJSON exScripts = (true, []) := by
  cases hfc : findConflictAux g g with
  | none =>
    have hval : validatePipelineJSON g = (true, []) := by
      simp [validatePipelineJSON, hfc]
    refine ⟨by rw [hval]; simp, ?_, fun _ => hval, by decide⟩
    rintro ⟨s, o, ⟨⟨k1, hk1⟩, ⟨k2, hk2⟩, hexts, hexto, huuid, hpath⟩⟩
    have h1 := findConflictAux_none g g hfc (k1, s) hk1 hexts
    have h2 := findOther_none s g h1 (k2, o) hk2
    rcases h2 with h2 | h2
    · exact (huuid h2).elim
    · exact (h2 hpath).elim
  | some p =>
    obtain ⟨s, o⟩ := p
    have hval : validatePipelineJSON g = (false, [validationMessage s o]) := by
      simp [validatePipelineJSON, hfc]
    obtain ⟨⟨k1, hk1⟩, hext, hfo⟩ := findConflictAux_some g g s o hfc
    obtain ⟨⟨k2, hk2⟩, huuid, hpath⟩ := findOther_some s g o hfo
    have hconf : StepConflict g s o :=
      ⟨⟨k1, hk1⟩, ⟨k2, hk2⟩, hext, by rw [hpath]; exact hext, huuid, hpath⟩
    refine ⟨by rw [hval]; simp, fun _ => ⟨by rw [hval], s, o, hconf, by rw [hval]⟩,
      fun hno => absurd ⟨s, o, hconf⟩ hno, by decide⟩

theorem validatePipelineJSON_spec_witness :
    (validatePipelineJSON exConflict).1 = false ∧
    (validatePipelineJSON exConflict).2.length ≤ 1 :=
  ⟨((validatePipelineJSON_spec exConflict).2.1
      ⟨mkStep "s1" "shared.ipynb" [], mkStep "s2" "shared.ipynb" [],
        ⟨"s1", by decide⟩, ⟨"s2", by decide⟩, by decide, by decide, by decide, by decide⟩).1,
   (validatePipelineJSON_spec exConflict).1⟩

/-- C9: round-trip.  Decoding the encoded document reproduces the same
step uuids in the same order; every step keeps its `incoming_connections`
(contents and order) and all persisted fields, while the runtime-only
"_"-prefixed `meta_data` keys are reset to their defaults
(`_drag_count = 0`, `_dragged = false`) instead of carrying the
pre-serialization values; and the serialized document itself contains no
"_"-prefixed `meta_data` key and omits `outgoing_connections`. -/
theorem encodeJSON_decodeJSON_roundtrip (g : Graph)
    (hnd : (keysOf g).Nodup) (hco : ∀ kv ∈ g, kv.2.uuid = kv.1) :
    keysOf (decodeJSON (encodeJSON g) []) = keysOf g ∧
    (∀ k s, jsLookup g k = some s →
      jsLookup (decodeJSON (encodeJSON g) []) k = some { s with
        meta_data := stripMeta s.meta_data
          ++ [("_drag_count", JValue.num 0), ("_dragged", JValue.bool false)],
        outgoing_connections := none }) ∧
    (∀ kv ∈ encodeJSON g, (∀ p ∈ kv.2.meta_data, underscorePrefixed p.1 = false) ∧
      kv.2.outgoing_connections = none) := by
  have henc : encodeJSON g = g.map (fun kv => (kv.1, encodeStep kv.2)) := by
    have h := encodeJSON_foldl g [] hco hnd (by simp)
    simpa [encodeJSON] using h
  have hkeysenc : keysOf (encodeJSON g) = keysOf g := by
    rw [henc]
    simp [keysOf, List.map_map, Function.comp]
  have hdec : decodeJSON (encodeJSON g) []
      = (encodeJSON g).map (fun kv => (kv.1, decodeStep kv.2)) := by
    have h := decodeJSON_foldl (encodeJSON g) [] (by rw [hkeysenc]; exact hnd) (by simp)
    simpa using h
  have hrt : decodeJSON (encodeJSON g) []
      = g.map (fun kv => (kv.1, decodeStep (encodeStep kv.2))) := by
    rw [hdec, henc, List.map_map]
    rfl
  refine ⟨?_, ?_, ?_⟩
  · rw [hrt]
    simp [keysOf, List.map_map, Function.comp]
  · intro k s hk
    rw [hrt]
    have hlook := jsLookup_map_value g (fun s0 => decodeStep (encodeStep s0)) k
    rw [hlook, hk]
    show some (decodeStep (encodeStep s)) = _
    rw [decodeStep_encodeStep]
  · intro kv hkv
    rw [henc, List.mem_map] at hkv
    obtain ⟨kv0, hkv0, rfl⟩ := hkv
    refine ⟨?_, rfl⟩
    intro p hp
    have hp' : p ∈ stripMeta kv0.2.meta_data := hp
    rw [stripMeta, List.mem_filter] at hp'
    simpa using hp'.2

theorem encodeJSON_decodeJSON_roundtrip_witness :
    keysOf (decodeJSON (encodeJSON exMeta) []) = keysOf exMeta :=
  (encodeJSON_decodeJSON_roundtrip exMeta (by decide) (by decide)).1

theorem cycleLoopF_fuel_irrelevant (g : Graph) :
    ∀ (a b : Nat) (white grey : List String) (cycles : Bool),
      white.length ≤ a → white.length ≤ b →
      cycleLoopF g (a + 1) white grey cycles = cycleLoopF g (b + 1) white grey cycles := by
  intro a
  induction a with
  | zero =>
    intro b white grey cycles ha _
    have hw : white = [] := List.length_eq_zero.mp (Nat.le_zero.mp ha)
    subst hw
    rfl
  | succ a ih =>
    intro b white grey cycles ha hb
    cases white with
    | nil => rfl
    | cons u tl =>
      rw [List.length_cons] at ha hb
      cases b with
      | zero => omega
      | succ b' =>
        simp only [cycleLoopF]
        cases hd : dfsWithSetsF g (tl.length + 1) u (u :: tl) grey with
        | none => rfl
        | some r1 =>
          obtain ⟨b1, w1, gr1⟩ := r1
          have hsub : w1.Sublist tl := by
            have h := dfsWithSetsF_sublist g (tl.length + 1) u (u :: tl) grey (b1, w1, gr1) hd
            rwa [List.erase_cons_head] at h
          exact ih b' w1 gr1 (cycles || b1)
            (le_trans hsub.length_le (by omega)) (le_trans hsub.length_le (by omega))

/-- C10: the depth-first search terminates, with work bounded by the
number of unvisited steps: with fuel at least `whiteSet.length` (each
nested call first removes its node from the white set and recurses only
into nodes still white) the search always produces an answer, and giving
the driving while-loop any fuel beyond `whiteSet.length + 1` cannot change
its result. -/
theorem dfs_terminates_within_step_count (g : Graph) (u : String)
    (white grey : List String) (cycles : Bool) (fuel : Nat)
    (_hclosed : ∀ kv ∈ g, ∀ y ∈ kv.2.incoming_connections, y ∈ keysOf g)
    (hu : u ∈ white) (hfuel : white.length ≤ fuel) :
    (dfsWithSetsF g fuel u white grey).isSome = true ∧
    cycleLoopF g (fuel + 1) white grey cycles
      = cycleLoopF g (white.length + 1) white grey cycles :=
  ⟨dfsWithSetsF_isSome g fuel u white grey hu hfuel,
   cycleLoopF_fuel_irrelevant g fuel white.length white grey cycles hfuel (le_refl _)⟩

theorem dfs_terminates_within_step_count_witness :
    (dfsWithSetsF exAB 2 "a" ["a", "b"] []).isSome = true :=
  (dfs_terminates_within_step_count exAB "a" ["a", "b"] [] false 2
    (by decide) (by decide) (by decide)).1

end PipelineView

